import Mathlib

/-!
Verification of the saltclass resolution engine
(`salt/utils/saltclass.py`): a shallow embedding of the data model
(YAML-like trees), the deep-merge algorithm, the variable expander, the
path/glob resolution and the recursive class-graph expansion, together
with theorems about the engine's ordering, precedence, termination and
error behaviour.

Modelling conventions:
- Python values rendered from YAML are modelled by the inductive `Val`
  (null, bool, int, string, list, dict).  Dicts are association lists in
  insertion order, mirroring Python dict semantics (`odLookup` finds the
  first binding, `odSet` replaces in place or appends).
- Python exceptions are modelled by `Option`/`Res.crash`: a function
  returns `none`/`Res.crash` exactly where the Python code would raise.
- The mutable state of one resolve call (the `seen_classes` list and the
  live `__pillar__` accumulator) is threaded explicitly.
- Values are modelled immutably: the source mutates shared sub-objects
  in place (e.g. `extend`/`pop` on lists reachable from both the live
  pillar dict and a stored class document); the embedding copies
  instead.  All theorems below stay inside the fragment where this
  difference is unobservable.
- The unbounded recursion of `expand_classes_in_order` is driven by an
  explicit fuel parameter that decreases at every nested expansion; the
  termination theorem shows the fuel is never exhausted once it exceeds
  the number of class files.
-/

/-- YAML-like value tree as produced by the renderer. -/
inductive Val where
  | vnull : Val
  | vbool : Bool → Val
  | vint : Int → Val
  | vstr : String → Val
  | vlist : List Val → Val
  | vdict : List (String × Val) → Val

/-- Dicts in insertion order, as Python dicts. -/
abbrev Dict := List (String × Val)

mutual
/-- Python `==` on values.  Structural, except that the numeric
equalities `True == 1` and `1 == 1.0` of Python are not modelled (no
claim depends on them). -/
def valBeq : Val → Val → Bool
  | Val.vnull, Val.vnull => true
  | Val.vbool a, Val.vbool b => a = b
  | Val.vint a, Val.vint b => a = b
  | Val.vstr a, Val.vstr b => a = b
  | Val.vlist a, Val.vlist b => vlistBeq a b
  | Val.vdict a, Val.vdict b => vdictBeq a b
  | _, _ => false
def vlistBeq : List Val → List Val → Bool
  | [], [] => true
  | x :: xs, y :: ys => valBeq x y && vlistBeq xs ys
  | _, _ => false
def vdictBeq : List (String × Val) → List (String × Val) → Bool
  | [], [] => true
  | (k, v) :: xs, (l, w) :: ys => (k = l : Bool) && valBeq v w && vdictBeq xs ys
  | _, _ => false
end

/-- Python truthiness of a value. -/
def isFalsy : Val → Bool
  | Val.vnull => true
  | Val.vbool b => !b
  | Val.vint n => n = 0
  | Val.vstr s => s.data.isEmpty
  | Val.vlist xs => xs.isEmpty
  | Val.vdict d => d.isEmpty

/-- First binding of a key (Python `d[k]` / `k in d`). -/
def odLookup {α : Type} : List (String × α) → String → Option α
  | [], _ => none
  | (k1, v) :: rest, k => if k1 = k then some v else odLookup rest k

/-- Python `d[k] = v`: replace in place if the key exists, else append. -/
def odSet {α : Type} : List (String × α) → String → α → List (String × α)
  | [], k, v => [(k, v)]
  | (k1, v1) :: rest, k, v => if k1 = k then (k1, v) :: rest else (k1, v1) :: odSet rest k v

/-- Python `a.update(b)` on (ordered) dicts. -/
def odUpdate {α : Type} : List (String × α) → List (String × α) → List (String × α)
  | a, [] => a
  | a, (k, v) :: rest => odUpdate (odSet a k v) rest

/-- Remove the binding of a key (helper for `moveToEnd`). -/
def odRemove {α : Type} : List (String × α) → String → List (String × α)
  | [], _ => []
  | (k1, v1) :: rest, k => if k1 = k then rest else (k1, v1) :: odRemove rest k

/-- Python `OrderedDict.move_to_end`. -/
def moveToEnd {α : Type} (l : List (String × α)) (k : String) : List (String × α) :=
  match odLookup l k with
  | none => l
  | some v => odRemove l k ++ [(k, v)]

/-- The test `b[key][0] == "^"` of `dict_merge`. -/
def isCaret : Val → Bool
  | Val.vstr s => s = "^"
  | _ => false

mutual
/-- The merge engine `dict_merge(a, b)` of saltclass: for each key of
`b` in order, lists are extended (or replaced when `b`-side starts with
the `"^"` sentinel), dicts are merged recursively, equal values are kept
and anything else is overwritten by the `b` side.  `none` models the
`IndexError` raised on `b[key][0]` when the `b` side is an empty list
(and the nested failure of a recursive merge). -/
def dict_merge : Dict → Dict → Option Dict
  | a, [] => some a
  | a, (key, bv) :: rest =>
    match dict_merge_key a key bv with
    | none => none
    | some a1 => dict_merge a1 rest
/-- Body of `dict_merge` for a single key of `b`, split on the shape
of the `b`-side value (branch selection as in the source: the
both-lists branch first, then both-dicts, then equality, then
overwrite). -/
def dict_merge_key : Dict → String → Val → Option Dict
  | a, key, Val.vlist [] =>
    match odLookup a key with
    | none => some (odSet a key (Val.vlist []))
    | some (Val.vlist _) => none
    | some av =>
      if valBeq av (Val.vlist []) then some a else some (odSet a key (Val.vlist []))
  | a, key, Val.vlist (y :: t) =>
    match odLookup a key with
    | none => some (odSet a key (Val.vlist (y :: t)))
    | some (Val.vlist xs) =>
      if isCaret y then some (odSet a key (Val.vlist t))
      else some (odSet a key (Val.vlist (xs ++ y :: t)))
    | some av =>
      if valBeq av (Val.vlist (y :: t)) then some a
      else some (odSet a key (Val.vlist (y :: t)))
  | a, key, Val.vdict db =>
    match odLookup a key with
    | none => some (odSet a key (Val.vdict db))
    | some (Val.vdict da) =>
      match dict_merge da db with
      | none => none
      | some m => some (odSet a key (Val.vdict m))
    | some av =>
      if valBeq av (Val.vdict db) then some a else some (odSet a key (Val.vdict db))
  | a, key, bv =>
    match odLookup a key with
    | none => some (odSet a key bv)
    | some av => if valBeq av bv then some a else some (odSet a key bv)
end

/-- Does `pat` occur at the head of `s`? (helper for `strReplace`). -/
def listStarts : List Char → List Char → Bool
  | [], _ => true
  | _ :: _, [] => false
  | p :: ps, c :: cs => p = c && listStarts ps cs

/-- Fuel-driven body of `strReplace`; the fuel only caps the recursion
and is never exhausted when it exceeds the length of the subject. -/
def strReplaceGo : Nat → List Char → List Char → List Char → List Char
  | 0, s, _, _ => s
  | _ + 1, [], _, _ => []
  | fuel + 1, c :: s, pat, rep =>
    if listStarts pat (c :: s) then rep ++ strReplaceGo fuel ((c :: s).drop pat.length) pat rep
    else c :: strReplaceGo fuel s pat rep

/-- Python `str.replace`: replace every non-overlapping occurrence,
left to right.  (Call sites in the source always pass a non-empty
pattern.) -/
def strReplace (s pat rep : String) : String :=
  String.mk (strReplaceGo (s.data.length + 1) s.data pat.data rep.data)

/-- Python `str.split(":")` (helper for the variable expander). -/
def splitColonGo : List Char → List Char → List String
  | acc, [] => [String.mk acc.reverse]
  | acc, ':' :: rest => String.mk acc.reverse :: splitColonGo [] rest
  | acc, c :: rest => splitColonGo (c :: acc) rest

/-- Split a string on colons, Python-style. -/
def splitColon (cs : List Char) : List String := splitColonGo [] cs

/-- Python substring test `i in a` on strings. -/
def listIsInfix (pat : List Char) : List Char → Bool
  | [] => listStarts pat []
  | c :: cs => listStarts pat (c :: cs) || listIsInfix pat cs

/-- Minimal closing brace for the non-greedy `.*?\x7d` of the token
regex: the text up to the first closing brace, failing on a newline or
the end of the string (`.` does not match a newline). -/
def findCloseBrace : List Char → Option (List Char × List Char)
  | [] => none
  | '\x7d' :: rest => some ([], rest)
  | '\n' :: _ => none
  | c :: rest =>
    match findCloseBrace rest with
    | none => none
    | some (inner, r) => some (c :: inner, r)

/-- Build the matched text for a token with a leading character. -/
def mkLeadTok (c : Char) (inner : List Char) : String :=
  String.mk (c :: '$' :: '\x7b' :: (inner ++ ['\x7d']))

/-- Build the matched text for a token at the start of the string. -/
def mkHeadTok (inner : List Char) : String :=
  String.mk ('$' :: '\x7b' :: (inner ++ ['\x7d']))

/-- Scanner for `re.finditer(r"(^|.)\$\{.*?\}", s)`: positions are
tried left to right; at position 0 the `^` alternative is tried first
(a match with no leading character), then the `.` alternative (one
leading non-newline character before the token, the inner matches
below); matches do not overlap.  The fuel decreases with the remaining
text and is never exhausted. -/
def scanMatchesGo : Nat → Bool → List Char → List String
  | 0, _, _ => []
  | _ + 1, _, [] => []
  | fuel + 1, atStart, c :: cs =>
    match atStart, c, cs with
    | true, '$', '\x7b' :: rest =>
      match findCloseBrace rest with
      | some (inner, rest1) => mkHeadTok inner :: scanMatchesGo fuel false rest1
      | none =>
        match '\x7b' :: rest with
        | '$' :: '\x7b' :: r =>
          match findCloseBrace r with
          | some (inner, rest1) => mkLeadTok '$' inner :: scanMatchesGo fuel false rest1
          | none => scanMatchesGo fuel false ('\x7b' :: rest)
        | _ => scanMatchesGo fuel false ('\x7b' :: rest)
    | _, _, _ =>
      if c = '\n' then scanMatchesGo fuel false cs
      else
        match cs with
        | '$' :: '\x7b' :: r =>
          match findCloseBrace r with
          | some (inner, rest1) => mkLeadTok c inner :: scanMatchesGo fuel false rest1
          | none => scanMatchesGo fuel false cs
        | _ => scanMatchesGo fuel false cs

/-- All matches of the token regex in a string, in scan order. -/
def findMatches (s : String) : List String :=
  scanMatchesGo (s.data.length + 1) true s.data

/-- The string a Python value must be for `str.replace`; `none` models
the `TypeError` raised when a non-string is substituted. -/
def asPyStr : Val → Option String
  | Val.vstr s => some s
  | _ => none

/-- Loop of `find_value_to_expand`: descend the tree segment by
segment.  Mirrors the Python duck typing of `i in a` / `a.get(i)`:
a `None` node returns the reference text; a missing dict key returns
the reference text; `i in a` on a string or list that succeeds is
followed by `a.get(i)` which raises (`none`); `in` on other scalars
raises. -/
def find_value_to_expand_go : Val → List String → String → Option Val
  | a, [], _ => some a
  | Val.vnull, _ :: _, v => some (Val.vstr v)
  | Val.vdict d, i :: rest, v =>
    match odLookup d i with
    | some a1 => find_value_to_expand_go a1 rest v
    | none => some (Val.vstr v)
  | Val.vstr s, i :: _, v =>
    if listIsInfix i.data s.data then none else some (Val.vstr v)
  | Val.vlist xs, i :: _, v =>
    if xs.any (fun e => valBeq e (Val.vstr i)) then none else some (Val.vstr v)
  | _, _ :: _, _ => none

/-- The colon path inside a `${...}` reference (`v[2:-1].split(":")`). -/
def refPathSegs (tok : String) : List String :=
  splitColon ((tok.data.drop 2).dropLast)

/-- `find_value_to_expand(x, v)`: resolve a `${a:b:c}` reference
against the tree `x`, returning the reference text itself when the
path cannot be followed. -/
def find_value_to_expand (x : Val) (v : String) : Option Val :=
  find_value_to_expand_go x (refPathSegs v) v

mutual
/-- `dict_search_and_replace(d, old, new)`: replace every value equal
to `old` by `new`, recursing through dict values and through dict and
string elements of list values (elements of lists nested directly in
lists are not visited, as in the source). -/
def dict_search_and_replace : Dict → String → String → Dict
  | [], _, _ => []
  | (k, v) :: rest, old, new =>
    (k, dsarValue v old new) :: dict_search_and_replace rest old new
/-- Transformation of one dict value by `dict_search_and_replace`. -/
def dsarValue : Val → String → String → Val
  | Val.vdict d, old, new => Val.vdict (dict_search_and_replace d old new)
  | Val.vlist xs, old, new => Val.vlist (dsarItems xs old new)
  | v, old, new => if valBeq v (Val.vstr old) then Val.vstr new else v
def dsarItems : List Val → String → String → List Val
  | [], _, _ => []
  | i :: rest, old, new => dsarItem i old new :: dsarItems rest old new
/-- Transformation of one list element by `dict_search_and_replace`. -/
def dsarItem : Val → String → String → Val
  | Val.vdict d, old, new => Val.vdict (dict_search_and_replace d old new)
  | Val.vstr s, old, new => if s = old then Val.vstr new else Val.vstr s
  | i, _, _ => i
end

/-- Loop of `find_and_process_re` over the matches of the token regex
in the original string.  State: the current string `s` (the local
`_str`), the original value `v` (updated only in the head-token
branch, as in the source) and the tree `b`.  `none` models the
`TypeError` raised when a resolved value is not a string. -/
def find_and_process_re_go : List String → String → Val → Dict → Option Dict
  | [], _, _, b => some b
  | m :: rest, s, v, b =>
    if m.data.head? = some '\\' then
      let vNew := strReplace s m (String.mk (m.data.dropWhile (fun c => c = '\\')))
      find_and_process_re_go rest s v (dict_search_and_replace b s vNew)
    else if m.data.head? = some '$' then
      match find_value_to_expand (Val.vdict b) m with
      | none => none
      | some ve =>
        match asPyStr ve with
        | none => none
        | some r =>
          let vNew :=
            match asPyStr v with
            | some vs => strReplace vs m r
            | none => strReplace s m r
          find_and_process_re_go rest vNew (Val.vstr vNew)
            (dict_search_and_replace b s vNew)
    else
      match find_value_to_expand (Val.vdict b) (String.mk (m.data.drop 1)) with
      | none => none
      | some ve =>
        match asPyStr ve with
        | none => none
        | some r =>
          let vNew := strReplace s (String.mk (m.data.drop 1)) r
          find_and_process_re_go rest vNew v (dict_search_and_replace b s vNew)

/-- `find_and_process_re(_str, v, k, b)`: expand every token match of
`_str` against the tree `b` and substitute tree-wide.  The `expanded`
accumulator of the source is write-only (never read) and is omitted;
the key `k` is likewise only appended to it and is kept here for the
signature only. -/
def find_and_process_re (s : String) (v : Val) (_k : String) (b : Dict) : Option Dict :=
  find_and_process_re_go (findMatches s) s v b

mutual
/-- `expand_variables` walk over the entries of `a`, threading the
result tree `b` (the source mutates `b` in place). -/
def expand_variables_dict : Dict → Dict → Option Dict
  | [], b => some b
  | (k, v) :: rest, b =>
    match expand_variables_value k v b with
    | none => none
    | some b1 => expand_variables_dict rest b1
termination_by structural a => a
/-- One value of the walk: dicts are recursed, lists are walked
element-wise, strings go through `find_and_process_re`. -/
def expand_variables_value : String → Val → Dict → Option Dict
  | _, Val.vdict d, b => expand_variables_dict d b
  | k, Val.vlist xs, b => expand_variables_items k (Val.vlist xs) xs b
  | k, Val.vstr s, b => find_and_process_re s (Val.vstr s) k b
  | _, _, b => some b
termination_by structural _ v => v
def expand_variables_items : String → Val → List Val → Dict → Option Dict
  | _, _, [], b => some b
  | k, v, i :: rest, b =>
    match expand_variables_item k v i b with
    | none => none
    | some b1 => expand_variables_items k v rest b1
termination_by structural _ _ l => l
/-- One list element of the walk: dict elements are recursed, string
elements go through `find_and_process_re` with the whole list as the
original value `v`; other elements (including nested lists) are
skipped, as in the source. -/
def expand_variables_item : String → Val → Val → Dict → Option Dict
  | _, _, Val.vdict d, b => expand_variables_dict d b
  | k, v, Val.vstr s, b => find_and_process_re s v k b
  | _, _, _, b => some b
termination_by structural _ _ i => i
end

/-- `expand_variables(a, {}, [])` with `path=None`: the source starts
from a shallow copy of `a` and walks `a` updating the copy. -/
def expand_variables (a : Dict) : Option Dict :=
  expand_variables_dict a a

mutual
/-- No string value anywhere in the dict contains a token match. -/
def matchFreeDict : Dict → Bool
  | [] => true
  | (_, v) :: rest => matchFreeVal v && matchFreeDict rest
def matchFreeVal : Val → Bool
  | Val.vstr s => (findMatches s).isEmpty
  | Val.vlist xs => matchFreeItems xs
  | Val.vdict d => matchFreeDict d
  | _ => true
def matchFreeItems : List Val → Bool
  | [] => true
  | i :: rest => matchFreeVal i && matchFreeItems rest
end

/-- Result of a stateful computation: `ok`, a Python exception
(`crash`), or exhaustion of the artificial recursion fuel (`spent`,
never a Python behaviour). -/
inductive Res (α : Type) where
  | ok : α → Res α
  | crash : Res α
  | spent : Res α

/-- Lift an exception-modelling `Option` into `Res`. -/
def liftO {α : Type} : Option α → Res α
  | some a => Res.ok a
  | none => Res.crash

/-- Replace dots by path separators (`_class.replace(".", os.sep)`). -/
def dotsToSlashes (c : String) : String :=
  String.mk (c.data.map (fun ch => if ch = '.' then '/' else ch))

/-- `get_class_paths(_class, saltclass_path)`: the three candidate
storage paths of a class, returned as (straight, sub_init,
sub_straight) in the order of the source. -/
def get_class_paths (c : String) (saltclass_path : String) : String × String × String :=
  (saltclass_path ++ "/classes/" ++ c ++ ".yml",
   saltclass_path ++ "/classes/" ++ dotsToSlashes c ++ "/init.yml",
   saltclass_path ++ "/classes/" ++ dotsToSlashes c ++ ".yml")

/-- `get_class_from_file(_file, saltclass_path)`: strip the
`classes/` prefix and the `.yml` extension, turn separators into dots
and drop a trailing `.init` segment. -/
def get_class_from_file (f : String) (saltclass_path : String) : String :=
  let base := f.data.drop ((saltclass_path ++ "/classes").data.length + 1)
  let base := base.take (base.length - 4)
  let dotted := base.map (fun ch => if ch = '/' then '.' else ch)
  if ['.', 'i', 'n', 'i', 't'].isSuffixOf dotted then
    String.mk (dotted.take (dotted.length - 5))
  else String.mk dotted

/-- Fuel-driven glob matcher for one path: `*` matches any run of
non-separator characters, `?` one non-separator character, other
characters match themselves.  (Character classes of `glob` are not
used by the engine and are not modelled.)  The fuel is never exhausted
when it exceeds pattern length + string length. -/
def globMatchGo : Nat → List Char → List Char → Bool
  | 0, _, _ => false
  | _ + 1, [], s => s.isEmpty
  | fuel + 1, '*' :: p, [] => globMatchGo fuel p []
  | fuel + 1, '*' :: p, c :: s =>
    globMatchGo fuel p (c :: s) || (!(c = '/') && globMatchGo fuel ('*' :: p) s)
  | fuel + 1, '?' :: p, c :: s => !(c = '/') && globMatchGo fuel p s
  | _ + 1, _ :: _, [] => false
  | fuel + 1, ch :: p, c :: s => ch = c && globMatchGo fuel p s

/-- Does a file path match a glob pattern? -/
def globMatch (pat f : String) : Bool :=
  globMatchGo (pat.data.length + f.data.length + 1) pat.data f.data

/-- The read-only environment and initial state of one resolve call:
the storage root, the node id, the file paths found under
`classes/` (in walk order), the `os_walk` of `nodes/` as (directory,
file names) pairs, the rendered document of each file, and the initial
live pillar dict `salt_data["__pillar__"]`. -/
structure SaltData where
  path : String
  minion_id : String
  classFiles : List String
  nodesWalk : List (String × List String)
  render : String → Val
  pillar0 : Dict

/-- `get_class(_class, salt_data)`: try the three candidate paths
against the walked file list in the order straight, sub_straight,
sub_init; render the first hit, else return an empty document and log
a warning (the boolean of the result). -/
def get_class (c : String) (sd : SaltData) : Val × Bool :=
  match get_class_paths c sd.path with
  | (straight, sub_init, sub_straight) =>
    if sd.classFiles.contains straight then (sd.render straight, false)
    else if sd.classFiles.contains sub_straight then (sd.render sub_straight, false)
    else if sd.classFiles.contains sub_init then (sd.render sub_init, false)
    else (Val.vdict [], true)

/-- `match_class_glob(_class, saltclass_path)`: glob the three
candidate shapes against the storage and map every hit back to a class
name. -/
def match_class_glob (c : String) (sd : SaltData) : List String :=
  match get_class_paths c sd.path with
  | (straight, sub_init, sub_straight) =>
    ((sd.classFiles.filter (fun f => globMatch straight f))
      ++ sd.classFiles.filter (fun f => globMatch sub_straight f)
      ++ sd.classFiles.filter (fun f => globMatch sub_init f)).map
      (fun f => get_class_from_file f sd.path)

/-- Keep the first occurrence of each class name (the dedup loop of
`expand_classes_glob`). -/
def dedupKeepFirst : List String → List String → List String
  | _, [] => []
  | seenl, c :: rest =>
    if seenl.contains c then dedupKeepFirst seenl rest
    else c :: dedupKeepFirst (c :: seenl) rest

/-- Gather `match_class_glob` over a class list; `none` models the
`AttributeError` on a non-string class name. -/
def expand_classes_glob_go : List Val → SaltData → Option (List String)
  | [], _ => some []
  | Val.vstr c :: rest, sd =>
    match expand_classes_glob_go rest sd with
    | none => none
    | some r => some (match_class_glob c sd ++ r)
  | _ :: _, _ => none

/-- `expand_classes_glob(classes, salt_data)`: expand every name and
deduplicate keeping the first occurrence. -/
def expand_classes_glob (classes : List Val) (sd : SaltData) : Option (List String) :=
  match expand_classes_glob_go classes sd with
  | none => none
  | some all => some (dedupKeepFirst [] all)

/-- Python iteration over a classes/states value: lists yield their
elements, strings their characters, dicts their keys; iterating other
scalars raises (`none`). -/
def iterVals : Val → Option (List Val)
  | Val.vlist xs => some xs
  | Val.vstr s => some (s.data.map (fun ch => Val.vstr (String.mk [ch])))
  | Val.vdict d => some (d.map (fun kv => Val.vstr kv.fst))
  | _ => none

/-- `dict_merge(a, v)` where `v` comes from a `.get("pillars", {})`:
a dict merges, an empty list or empty string iterates zero keys and
leaves `a` unchanged, anything else raises on its first key. -/
def mergeTop (a : Dict) : Val → Option Dict
  | Val.vdict d => dict_merge a d
  | Val.vlist [] => some a
  | Val.vstr s => if s.data.isEmpty then some a else none
  | _ => none

/-- The document loaded for a class, after the `None`-to-`{}` fix of
the source; a non-dict document raises at the following
`.get("pillars", {})` (`none`). -/
def docAsDict : Val → Option Dict
  | Val.vnull => some []
  | Val.vdict d => some d
  | _ => none

/-- The incremental pillar merge of one class (`if new_pillars:
dict_merge(salt_data["__pillar__"], new_pillars)`). -/
def mergeNewPillars (pillar : Dict) (np : Val) : Option Dict :=
  if isFalsy np then some pillar else mergeTop pillar np

/-- Result of one expansion: the ordered (class name, document) list,
the seen list and the live pillar dict. -/
abbrev ExpRes := List (String × Dict) × List String × Dict

/-- The loop of `expand_classes_in_order` over an already
glob-expanded class list: skip seen classes; otherwise mark seen, load
the document, merge its pillars into the live pillar dict, recurse
into its `classes` (through `recur`, the expansion at one fuel less)
and record the class after its nested classes
(`klass_dict.update(nested); klass_dict.move_to_end(klass)`). -/
def eciLoop (sd : SaltData) (recur : Dict → List String → Dict → Val → Res ExpRes) :
    List String → List String → Dict → List (String × Dict) → Res ExpRes
  | [], seen, pillar, acc => Res.ok (acc, seen, pillar)
  | klass :: rest, seen, pillar, acc =>
    if seen.contains klass then eciLoop sd recur rest seen pillar acc
    else
      match docAsDict (get_class klass sd).fst with
      | none => Res.crash
      | some docd =>
        match mergeNewPillars pillar ((odLookup docd "pillars").getD (Val.vdict [])) with
        | none => Res.crash
        | some pillar1 =>
          match odLookup docd "classes" with
          | none =>
            eciLoop sd recur rest (seen ++ [klass]) pillar1 (odUpdate acc [(klass, docd)])
          | some cval =>
            match recur [] (seen ++ [klass]) pillar1 cval with
            | Res.ok (nested, seen2, pillar2) =>
              eciLoop sd recur rest seen2 pillar2
                (odUpdate acc (moveToEnd (odUpdate [(klass, docd)] nested) klass))
            | Res.crash => Res.crash
            | Res.spent => Res.spent

/-- `expand_classes_in_order(minion_dict, salt_data, seen_classes,
classes_to_expand)`: default the class list from the minion document,
glob-expand it, run the loop, and append the minion document as the
final entry when it is non-empty (`if minion_dict: ...`).  The fuel
decreases at each nested expansion. -/
def expand_classes_in_order : Nat → Dict → SaltData → List String → Dict → Val → Res ExpRes
  | 0, _, _, _, _, _ => Res.spent
  | fuel + 1, md, sd, seen, pillar, cte =>
    match iterVals
        (match isFalsy cte, odLookup md "classes" with
         | true, some c => c
         | _, _ => cte) with
    | none => Res.crash
    | some lst =>
      match expand_classes_glob lst sd with
      | none => Res.crash
      | some lstS =>
        match eciLoop sd (fun md2 s p c => expand_classes_in_order fuel md2 sd s p c)
            lstS seen pillar [] with
        | Res.ok (l, seen1, p1) =>
          Res.ok ((if md.isEmpty then l else odUpdate l [(sd.minion_id, md)]), seen1, p1)
        | Res.crash => Res.crash
        | Res.spent => Res.spent

/-- The node-file search of `expanded_dict_from_minion` over one
directory: the assignment `_file = os.path.join(root, minion_file)`
keeps the last match. -/
def findInFiles : String → String → String → List String → String
  | acc, _, _, [] => acc
  | acc, mid, root, f :: rest =>
    findInFiles (if f = mid ++ ".yml" then root ++ "/" ++ f else acc) mid root rest

/-- The node-file search over the whole `os_walk` of `nodes/`. -/
def findMinionFileGo : String → String → List (String × List String) → String
  | acc, _, [] => acc
  | acc, mid, (root, files) :: rest => findMinionFileGo (findInFiles acc mid root files) mid rest

/-- Path of the node document: the last file named `<minion_id>.yml`
in walk order, or `""` when there is none. -/
def findMinionFile (walk : List (String × List String)) (mid : String) : String :=
  findMinionFileGo "" mid walk

/-- The node document value: the rendered node file, or an empty dict
when no node file exists. -/
def nodeDocVal (sd : SaltData) : Val :=
  let f := findMinionFile sd.nodesWalk sd.minion_id
  if f.data.isEmpty then Val.vdict [] else sd.render f

/-- The final composition loop of `expanded_dict_from_minion`: merge
every document that has a `pillars` key, in expansion order. -/
def foldMergePillars : Dict → List Dict → Option Dict
  | acc, [] => some acc
  | acc, d :: rest =>
    if (odLookup d "pillars").isSome then
      match dict_merge acc d with
      | none => none
      | some acc1 => foldMergePillars acc1 rest
    else foldMergePillars acc rest

/-- The states collection loop: extend with each document's `states`
value (iterated Python-style). -/
def collectStates : List Dict → Option (List Val)
  | [] => some []
  | d :: rest =>
    match odLookup d "states" with
    | none => collectStates rest
    | some sv =>
      match iterVals sv with
      | none => none
      | some xs =>
        match collectStates rest with
        | none => none
        | some r => some (xs ++ r)

/-- The states dedup (keep first) of the source; `none` models the
`TypeError` of hashing an unhashable state. -/
def dedupStates : List Val → List Val → Option (List Val)
  | _, [] => some []
  | seenv, s :: rest =>
    match s with
    | Val.vlist _ => none
    | Val.vdict _ => none
    | _ =>
      if seenv.any (fun t => valBeq t s) then dedupStates seenv rest
      else
        match dedupStates (s :: seenv) rest with
        | none => none
        | some r => some (s :: r)

/-- `expanded_dict_from_minion(minion_id, salt_data)`: locate and load
the node document, merge its pillars into the live pillar dict, expand
the class graph, and fold the expansion into the merged pillars dict,
the classes list (`keys()[:-1]`) and the deduplicated states list. -/
def expanded_dict_from_minion (fuel : Nat) (sd : SaltData) :
    Res (List Dict × Dict × List String × List Val) :=
  match nodeDocVal sd with
  | Val.vdict nd =>
    match mergeTop sd.pillar0 ((odLookup nd "pillars").getD (Val.vdict [])) with
    | none => Res.crash
    | some pillar1 =>
      match expand_classes_in_order fuel nd sd [] pillar1 (Val.vlist []) with
      | Res.ok (l, _, _) =>
        let classes_values := l.map Prod.snd
        let classes_list := (l.map Prod.fst).dropLast
        match foldMergePillars [] classes_values with
        | none => Res.crash
        | some pillars_dict =>
          match collectStates classes_values with
          | none => Res.crash
          | some sl =>
            match dedupStates [] sl with
            | none => Res.crash
            | some states_list => Res.ok (classes_values, pillars_dict, classes_list, states_list)
      | Res.crash => Res.crash
      | Res.spent => Res.spent
  | _ => Res.crash

/-- `get_env_from_dict(exp_dict_list)`: the last `environment` value,
defaulting to the empty string. -/
def getEnvGo : Val → List Dict → Val
  | env, [] => env
  | env, d :: rest =>
    match odLookup d "environment" with
    | some e => getEnvGo e rest
    | none => getEnvGo env rest

/-- Environment resolution over the expansion order. -/
def get_env_from_dict (l : List Dict) : Val := getEnvGo (Val.vstr "") l

/-- `get_pillars(minion_id, salt_data)`: run the expansion, expand the
variables of the merged `pillars` subtree and wrap it with the
`__saltclass__` metadata block. -/
def get_pillars (fuel : Nat) (sd : SaltData) : Res Dict :=
  match expanded_dict_from_minion fuel sd with
  | Res.ok (classes_values, pillars_dict, classes_list, states_list) =>
    let environment := get_env_from_dict classes_values
    match
      (match odLookup pillars_dict "pillars" with
       | some (Val.vdict pd) => expand_variables pd
       | some _ => none
       | none => expand_variables []) with
    | none => Res.crash
    | some pde =>
      Res.ok (odUpdate
        [("__saltclass__", Val.vdict
          [("states", Val.vlist states_list),
           ("classes", Val.vlist (classes_list.map Val.vstr)),
           ("environment", environment),
           ("nodename", Val.vstr sd.minion_id)])]
        pde)
  | Res.crash => Res.crash
  | Res.spent => Res.spent

/-- Lookup in the dict of an `ok` result (projection used by the
counterexamples). -/
def resLookup (r : Res Dict) (k : String) : Option Val :=
  match r with
  | Res.ok d => odLookup d k
  | _ => none

/-- The class names derivable from the class storage: the inverse
mapping applied to every walked file.  Every class processed by the
expansion loop is in this list, because `expand_classes_glob` only
produces names converted back from existing files. -/
def classUniverse (sd : SaltData) : List String :=
  sd.classFiles.map (fun f => get_class_from_file f sd.path)

/-- Number of universe classes not yet seen (termination measure). -/
def unseenCount (sd : SaltData) (seen : List String) : Nat :=
  ((classUniverse sd).dedup.filter (fun c => !(seen.contains c))).length

/-- A scalar value (not a sequence, not a mapping). -/
def isScalar : Val → Bool
  | Val.vlist _ => false
  | Val.vdict _ => false
  | _ => true

/-- Lookup of a key inside the `pillars` subtree of a merged dict. -/
def pillarAt (x : Dict) (kTop k : String) : Option Val :=
  match odLookup x kTop with
  | some (Val.vdict pd) => odLookup pd k
  | _ => none

/-- A document of the final composition that leaves the pillar key `k`
alone: either it has no `pillars` key (and is skipped by the loop), or
its `pillars` subtree is a dict without `k` (and the document has no
duplicate top-level keys). -/
def preservesPillarKey (d : Dict) (k : String) : Bool :=
  match odLookup d "pillars" with
  | none => true
  | some (Val.vdict pd) => (odLookup pd k).isNone && decide ((d.map Prod.fst).Nodup)
  | some _ => false

/-- A step of a tree path: a dict key or a list index. -/
inductive PathElem where
  | key : String → PathElem
  | idx : Nat → PathElem

/-- Value of a tree at a path. -/
def getAtVal : Val → List PathElem → Option Val
  | v, [] => some v
  | Val.vdict d, PathElem.key k :: rest =>
    match odLookup d k with
    | some v => getAtVal v rest
    | none => none
  | Val.vlist xs, PathElem.idx n :: rest =>
    match xs.get? n with
    | some v => getAtVal v rest
    | none => none
  | _, _ => none

/-- Paths reached by `dict_search_and_replace`: no list index directly
below another list index (lists nested directly in lists are not
visited). -/
def coveredPath : List PathElem → Bool
  | PathElem.idx _ :: PathElem.idx _ :: _ => false
  | _ :: rest => coveredPath rest
  | [] => true

/-- The token behind a match of the token regex (`re_str` itself for a
head match, `re_str[1:]` for a match with one leading character). -/
def tokenOf (m : String) : String :=
  if m.data.head? = some '$' then m else String.mk (m.data.drop 1)

/-- An unresolvable reference path: descending the tree key by key
hits a dict missing the next segment. -/
def unresolvable : Val → List String → Bool
  | _, [] => false
  | Val.vdict d, i :: rest =>
    match odLookup d i with
    | none => true
    | some a1 => unresolvable a1 rest
  | _, _ :: _ => false

/-- All node files matching the node id, in walk order (specification
side of the node-file search). -/
def matchPaths (walk : List (String × List String)) (mid : String) : List String :=
  walk.flatMap (fun rf =>
    (rf.snd.filter (fun f => f = mid ++ ".yml")).map (fun f => rf.fst ++ "/" ++ f))

/-- Shape of a successful expansion: the returned seen list extends
the input seen list by the processed classes (all of them from the
class universe, no duplicates), the returned entry keys are a
permutation of the processed classes, and the minion document is
appended through `odUpdate` exactly when it is non-empty. -/
def expandShape (sd : SaltData) (md : Dict) (seen : List String)
    (l : List (String × Dict)) (seen1 : List String) : Prop :=
  ∃ δ E, seen1 = seen ++ δ ∧ (seen ++ δ).Nodup ∧
    (∀ c ∈ δ, (classUniverse sd).contains c = true) ∧
    List.Perm (E.map Prod.fst) δ ∧
    l = (if md.isEmpty then E else odUpdate E [(sd.minion_id, md)])

/-- Storage for the node-precedence counterexample: a class named like
the node id (`n1`) plus a class `b`; the node document includes both
and sets pillar `k` to `2`, class `b` sets it to `3`. -/
def sdNodeCollide : SaltData where
  path := "/srv"
  minion_id := "n1"
  classFiles := ["/srv/classes/n1.yml", "/srv/classes/b.yml"]
  nodesWalk := [("/srv/nodes", ["n1.yml"])]
  render := fun f =>
    if f = "/srv/nodes/n1.yml" then
      Val.vdict [("classes", Val.vlist [Val.vstr "n1", Val.vstr "b"]),
                 ("pillars", Val.vdict [("k", Val.vint 2)])]
    else if f = "/srv/classes/b.yml" then
      Val.vdict [("pillars", Val.vdict [("k", Val.vint 3)])]
    else if f = "/srv/classes/n1.yml" then Val.vdict []
    else Val.vnull
  pillar0 := []

/-- Storage for the node-precedence witness: class `a` sets pillar `k`
to `1`, the node document sets it to `2`. -/
def sdNodeWins : SaltData where
  path := "/srv"
  minion_id := "n1"
  classFiles := ["/srv/classes/a.yml"]
  nodesWalk := [("/srv/nodes", ["n1.yml"])]
  render := fun f =>
    if f = "/srv/nodes/n1.yml" then
      Val.vdict [("classes", Val.vlist [Val.vstr "a"]),
                 ("pillars", Val.vdict [("k", Val.vint 2)])]
    else if f = "/srv/classes/a.yml" then
      Val.vdict [("pillars", Val.vdict [("k", Val.vint 1)])]
    else Val.vnull
  pillar0 := []

/-- Storage for the parent-over-child counterexample: `P` includes `C`
and `C` includes `P` (a cycle); `P` sets pillar `k` to `"p"`, `C` sets
it to `"c"`; the node includes `C`. -/
def sdCycle : SaltData where
  path := "/srv"
  minion_id := "n1"
  classFiles := ["/srv/classes/P.yml", "/srv/classes/C.yml"]
  nodesWalk := [("/srv/nodes", ["n1.yml"])]
  render := fun f =>
    if f = "/srv/nodes/n1.yml" then Val.vdict [("classes", Val.vlist [Val.vstr "C"])]
    else if f = "/srv/classes/P.yml" then
      Val.vdict [("classes", Val.vlist [Val.vstr "C"]),
                 ("pillars", Val.vdict [("k", Val.vstr "p")])]
    else if f = "/srv/classes/C.yml" then
      Val.vdict [("classes", Val.vlist [Val.vstr "P"]),
                 ("pillars", Val.vdict [("k", Val.vstr "c")])]
    else Val.vnull
  pillar0 := []

/-- Storage for the parent-over-child witness: acyclic `P` includes
`C`; `C` sets pillar `k` to `"c"`, `P` sets it to `"p"`. -/
def sdParentWins : SaltData where
  path := "/srv"
  minion_id := "n1"
  classFiles := ["/srv/classes/P.yml", "/srv/classes/C.yml"]
  nodesWalk := [("/srv/nodes", ["n1.yml"])]
  render := fun f =>
    if f = "/srv/nodes/n1.yml" then Val.vdict [("classes", Val.vlist [Val.vstr "P"])]
    else if f = "/srv/classes/P.yml" then
      Val.vdict [("classes", Val.vlist [Val.vstr "C"]),
                 ("pillars", Val.vdict [("k", Val.vstr "p")])]
    else if f = "/srv/classes/C.yml" then
      Val.vdict [("pillars", Val.vdict [("k", Val.vstr "c")])]
    else Val.vnull
  pillar0 := []

/-- Storage with a class file but no node file: the node document is
empty. -/
def sdEmptyNode : SaltData where
  path := "/srv"
  minion_id := "n1"
  classFiles := ["/srv/classes/a.yml"]
  nodesWalk := [("/srv/nodes", [])]
  render := fun _ => Val.vnull
  pillar0 := []

/-- Storage for the node-appended witness: one class, a non-empty node
document. -/
def sdNodeAppended : SaltData where
  path := "/srv"
  minion_id := "n1"
  classFiles := ["/srv/classes/a.yml"]
  nodesWalk := [("/srv/nodes", ["n1.yml"])]
  render := fun f =>
    if f = "/srv/nodes/n1.yml" then Val.vdict [("classes", Val.vlist [Val.vstr "a"])]
    else if f = "/srv/classes/a.yml" then Val.vdict [("states", Val.vlist [Val.vstr "s1"])]
    else Val.vnull
  pillar0 := []

/-- Node document used with `sdNodeAppended`. -/
def mdNodeAppended : Dict := [("classes", Val.vlist [Val.vstr "a"])]

/-- Storage for the cycle-tolerance witness: `A` includes `B` and `B`
includes `A`. -/
def sdCyclicAB : SaltData where
  path := "/srv"
  minion_id := "m1"
  classFiles := ["/srv/classes/A.yml", "/srv/classes/B.yml"]
  nodesWalk := [("/srv/nodes", ["m1.yml"])]
  render := fun f =>
    if f = "/srv/nodes/m1.yml" then Val.vdict [("classes", Val.vlist [Val.vstr "A"])]
    else if f = "/srv/classes/A.yml" then Val.vdict [("classes", Val.vlist [Val.vstr "B"])]
    else if f = "/srv/classes/B.yml" then Val.vdict [("classes", Val.vlist [Val.vstr "A"])]
    else Val.vnull
  pillar0 := []

/-- Node document used with `sdCyclicAB`. -/
def mdCyclicAB : Dict := [("classes", Val.vlist [Val.vstr "A"])]

/-- Storage with no class files at all (for the missing-class
witness). -/
def sdNoClassFiles : SaltData where
  path := "/srv"
  minion_id := "n1"
  classFiles := []
  nodesWalk := []
  render := fun _ => Val.vnull
  pillar0 := []

/-- Tree for the tree-wide-replacement counterexample: the same
unresolved string appears as the value of `c` and inside a list nested
directly in a list under `d`. -/
def exprTreeC6 : Dict :=
  [("a", Val.vdict [("b", Val.vstr "v")]),
   ("c", Val.vstr "$\x7ba:b\x7d"),
   ("d", Val.vlist [Val.vlist [Val.vstr "$\x7ba:b\x7d"]])]

/-- Tree for the substitution-granularity witness: two unrelated keys
hold the byte-identical unresolved string. -/
def exprTreeC6w : Dict :=
  [("a", Val.vdict [("b", Val.vstr "v")]),
   ("c", Val.vstr "$\x7ba:b\x7d"),
   ("c2", Val.vstr "$\x7ba:b\x7d")]

theorem contains_iff (l : List String) (c : String) : l.contains c = true ↔ c ∈ l := by
  simp [List.contains]

theorem odLookup_odSet_self {α : Type} (a : List (String × α)) (k : String) (v : α) :
    odLookup (odSet a k v) k = some v := by
  induction a with
  | nil => simp [odSet, odLookup]
  | cons h t ih =>
    obtain ⟨k1, v1⟩ := h
    by_cases hk : k1 = k
    · simp [odSet, hk, odLookup]
    · simp [odSet, hk, odLookup, ih]

theorem odLookup_odSet_ne {α : Type} (a : List (String × α)) (k k1 : String) (v : α)
    (h : ¬ k1 = k) : odLookup (odSet a k1 v) k = odLookup a k := by
  induction a with
  | nil => simp [odSet, odLookup, h]
  | cons hd t ih =>
    obtain ⟨k2, v2⟩ := hd
    by_cases hk : k2 = k1
    · subst hk
      simp [odSet, odLookup, h]
    · by_cases hk2 : k2 = k
      · subst hk2
        simp [odSet, hk, odLookup]
      · simp [odSet, hk, odLookup, hk2, ih]

theorem odSet_append_fresh {α : Type} (a : List (String × α)) (k : String) (v : α)
    (h : odLookup a k = none) : odSet a k v = a ++ [(k, v)] := by
  induction a with
  | nil => simp [odSet]
  | cons hd t ih =>
    obtain ⟨k1, v1⟩ := hd
    by_cases hk : k1 = k
    · simp [odLookup, hk] at h
    · simp [odLookup, hk] at h
      simp [odSet, hk, ih h]

theorem odSet_keys_mem {α : Type} (a : List (String × α)) (k : String) (v : α)
    (h : (odLookup a k).isSome) : (odSet a k v).map Prod.fst = a.map Prod.fst := by
  induction a with
  | nil => simp [odLookup] at h
  | cons hd t ih =>
    obtain ⟨k1, v1⟩ := hd
    by_cases hk : k1 = k
    · simp [odSet, hk]
    · simp [odLookup, hk] at h
      simp [odSet, hk, ih h]

theorem odSet_keys_new {α : Type} (a : List (String × α)) (k : String) (v : α)
    (h : odLookup a k = none) : (odSet a k v).map Prod.fst = a.map Prod.fst ++ [k] := by
  rw [odSet_append_fresh a k v h]
  simp

theorem odLookup_append {α : Type} (a b : List (String × α)) (k : String) :
    odLookup (a ++ b) k =
      (match odLookup a k with
       | some v => some v
       | none => odLookup b k) := by
  induction a with
  | nil => simp [odLookup]
  | cons hd t ih =>
    obtain ⟨k1, v1⟩ := hd
    by_cases hk : k1 = k
    · simp [odLookup, hk]
    · simp [odLookup, hk, ih]

theorem odLookup_none_of_not_mem {α : Type} (a : List (String × α)) (k : String)
    (h : ¬ k ∈ a.map Prod.fst) : odLookup a k = none := by
  induction a with
  | nil => simp [odLookup]
  | cons hd t ih =>
    obtain ⟨k1, v1⟩ := hd
    simp only [List.map_cons, List.mem_cons, not_or] at h
    have h1 : ¬ k1 = k := fun hh => h.1 hh.symm
    simp [odLookup, h1, ih h.2]

theorem odLookup_isSome_of_mem {α : Type} (a : List (String × α)) (k : String)
    (h : k ∈ a.map Prod.fst) : (odLookup a k).isSome := by
  induction a with
  | nil => simp at h
  | cons hd t ih =>
    obtain ⟨k1, v1⟩ := hd
    by_cases hk : k1 = k
    · simp [odLookup, hk]
    · simp [odLookup, hk]
      simp only [List.map_cons, List.mem_cons] at h
      rcases h with h | h
      · exact absurd h.symm hk
      · exact ih h

theorem odUpdate_preserves {α : Type} (b a : List (String × α)) (k : String)
    (h : ¬ k ∈ b.map Prod.fst) : odLookup (odUpdate a b) k = odLookup a k := by
  induction b generalizing a with
  | nil => simp [odUpdate]
  | cons hd t ih =>
    obtain ⟨k1, v1⟩ := hd
    simp only [List.map_cons, List.mem_cons, not_or] at h
    rw [odUpdate, ih _ h.2, odLookup_odSet_ne _ _ _ _ (fun hh => h.1 hh.symm)]

theorem odUpdate_lookup_mem {α : Type} (b a : List (String × α)) (k : String) (v : α)
    (hnd : (b.map Prod.fst).Nodup) (h : odLookup b k = some v) :
    odLookup (odUpdate a b) k = some v := by
  induction b generalizing a with
  | nil => simp [odLookup] at h
  | cons hd t ih =>
    obtain ⟨k1, v1⟩ := hd
    simp only [List.map_cons, List.nodup_cons] at hnd
    by_cases hk : k1 = k
    · subst hk
      simp [odLookup] at h
      subst h
      rw [odUpdate, odUpdate_preserves _ _ _ hnd.1, odLookup_odSet_self]
    · simp [odLookup, hk] at h
      rw [odUpdate]
      exact ih _ hnd.2 h

theorem odUpdate_append_disjoint {α : Type} (b a : List (String × α))
    (hnd : (b.map Prod.fst).Nodup)
    (h : ∀ k2 ∈ b.map Prod.fst, ¬ k2 ∈ a.map Prod.fst) :
    odUpdate a b = a ++ b := by
  induction b generalizing a with
  | nil => simp [odUpdate]
  | cons hd t ih =>
    obtain ⟨k1, v1⟩ := hd
    simp only [List.map_cons, List.nodup_cons] at hnd
    simp only [List.map_cons, List.mem_cons] at h
    rw [odUpdate, odSet_append_fresh _ _ _ (odLookup_none_of_not_mem _ _ (h k1 (Or.inl rfl))),
      ih _ hnd.2]
    · simp
    · intro k2 hk2
      intro hmem
      simp only [List.map_append, List.map_cons, List.map_nil, List.mem_append,
        List.mem_cons, List.not_mem_nil, or_false] at hmem
      rcases hmem with hmem | hmem
      · exact h k2 (Or.inr hk2) hmem
      · subst hmem
        exact absurd hk2 hnd.1

theorem valBeq_iff : ∀ a b : Val, valBeq a b = true ↔ a = b := by
  refine valBeq.induct (fun a b => valBeq a b = true ↔ a = b)
    (fun d e => vdictBeq d e = true ↔ d = e)
    (fun xs ys => vlistBeq xs ys = true ↔ xs = ys)
    ?_ ?_ ?_ ?_ ?_ ?_ ?_ ?_ ?_ ?_ ?_ ?_ ?_
  · simp [valBeq]
  · intro a b
    simp [valBeq]
  · intro a b
    simp [valBeq]
  · intro a b
    simp [valBeq]
  · intro a b ih
    simp [valBeq, ih]
  · intro a b ih
    simp [valBeq, ih]
  · intro t x h1 h2 h3 h4 h5 h6
    cases t <;> cases x <;>
      first
        | exact (h1 rfl rfl).elim
        | (rename_i u w; exact (h2 u w rfl rfl).elim)
        | (rename_i u w; exact (h3 u w rfl rfl).elim)
        | (rename_i u w; exact (h4 u w rfl rfl).elim)
        | (rename_i u w; exact (h5 u w rfl rfl).elim)
        | (rename_i u w; exact (h6 u w rfl rfl).elim)
        | simp [valBeq]
  · simp [vlistBeq]
  · intro x xs y ys ih1 ih2
    simp [vlistBeq, ih1, ih2]
  · intro t x h1 h2
    cases t <;> cases x <;>
      first
        | exact (h1 rfl rfl).elim
        | (rename_i a as b bs; exact (h2 a as b bs rfl rfl).elim)
        | simp [vlistBeq]
  · simp [vdictBeq]
  · intro k v xs l w ys ih1 ih2
    simp [vdictBeq, ih1, ih2, Prod.ext_iff]
  · intro t x h1 h2
    cases t <;> cases x <;>
      first
        | exact (h1 rfl rfl).elim
        | (rename_i a as b bs
           obtain ⟨ka, va⟩ := a
           obtain ⟨kb, vb⟩ := b
           exact (h2 ka va as kb vb bs rfl rfl).elim)
        | simp [vdictBeq]

theorem valBeq_sound (a b : Val) (h : valBeq a b = true) : a = b :=
  (valBeq_iff a b).mp h

theorem valBeq_refl (a : Val) : valBeq a a = true :=
  (valBeq_iff a a).mpr rfl

theorem val_ne_of_beq_false (a b : Val) (h : valBeq a b = false) : ¬ a = b := by
  intro hh
  rw [hh, valBeq_refl] at h
  cases h

theorem some_val_ne (a b : Val) (h : valBeq a b = false) :
    ¬ (some a = some b) := by
  intro hh
  exact val_ne_of_beq_false a b h (Option.some.inj hh)

theorem not_mem_of_lookup_none {α : Type} (a : List (String × α)) (k : String)
    (h : odLookup a k = none) : ¬ k ∈ a.map Prod.fst := by
  intro hm
  have := odLookup_isSome_of_mem a k hm
  rw [h] at this
  cases this

theorem dict_merge_key_preserves (a : Dict) (key : String) (bv : Val) (a1 : Dict) (k : String)
    (hne : ¬ key = k) (h : dict_merge_key a key bv = some a1) :
    odLookup a1 k = odLookup a k := by
  rcases bv with _ | vb | vn | vs | (_ | ⟨y, t⟩) | db <;>
    simp only [dict_merge_key] at h <;> split at h <;> (try split at h) <;>
    (try cases h) <;>
    first
      | exact odLookup_odSet_ne _ _ _ _ hne
      | rfl

theorem dict_merge_nil (a : Dict) : dict_merge a [] = some a := rfl

theorem dict_merge_cons (a : Dict) (key : String) (bv : Val) (rest : Dict) :
    dict_merge a ((key, bv) :: rest) =
      (match dict_merge_key a key bv with
       | none => none
       | some a1 => dict_merge a1 rest) := rfl

theorem dict_merge_preserves (b : Dict) (a m : Dict) (k : String)
    (hk : ¬ k ∈ b.map Prod.fst) (h : dict_merge a b = some m) :
    odLookup m k = odLookup a k := by
  induction b generalizing a with
  | nil =>
    rw [dict_merge_nil] at h
    injection h with h2
    subst h2
    rfl
  | cons hd rest ih =>
    obtain ⟨key, bv⟩ := hd
    rw [dict_merge_cons] at h
    simp only [List.map_cons, List.mem_cons, not_or] at hk
    cases hk1 : dict_merge_key a key bv with
    | none =>
      rw [hk1] at h
      cases h
    | some a1 =>
      rw [hk1] at h
      rw [ih a1 hk.2 h]
      exact dict_merge_key_preserves _ _ _ _ _ (fun hh => hk.1 hh.symm) hk1

theorem dict_merge_key_catchall (a : Dict) (key : String) (nv : Val) (a1 : Dict)
    (h : (match odLookup a key with
          | none => some (odSet a key nv)
          | some av => if valBeq av nv then some a else some (odSet a key nv)) = some a1) :
    odLookup a1 key = some nv := by
  cases hl : odLookup a key <;> simp only [hl] at h
  · injection h with h2
    subst h2
    exact odLookup_odSet_self _ _ _
  · rename_i av
    by_cases hb : valBeq av nv = true
    · rw [if_pos hb] at h
      injection h with h2
      subst h2
      rw [hl, valBeq_sound av nv hb]
    · rw [if_neg hb] at h
      injection h with h2
      subst h2
      exact odLookup_odSet_self _ _ _

theorem dict_merge_key_scalar (a : Dict) (key : String) (bv : Val) (a1 : Dict)
    (hs : isScalar bv = true) (h : dict_merge_key a key bv = some a1) :
    odLookup a1 key = some bv := by
  rcases bv with _ | vb | vn | vs | (_ | ⟨y, t⟩) | db
  · exact dict_merge_key_catchall a key Val.vnull a1 h
  · exact dict_merge_key_catchall a key (Val.vbool vb) a1 h
  · exact dict_merge_key_catchall a key (Val.vint vn) a1 h
  · exact dict_merge_key_catchall a key (Val.vstr vs) a1 h
  · cases hs
  · cases hs
  · cases hs

theorem dict_merge_scalar_wins (b : Dict) (a m : Dict) (k : String) (v : Val)
    (hnd : (b.map Prod.fst).Nodup) (hb : odLookup b k = some v) (hs : isScalar v = true)
    (h : dict_merge a b = some m) : odLookup m k = some v := by
  induction b generalizing a with
  | nil => simp [odLookup] at hb
  | cons hd rest ih =>
    obtain ⟨key, bv⟩ := hd
    rw [dict_merge_cons] at h
    simp only [List.map_cons, List.nodup_cons] at hnd
    cases hk1 : dict_merge_key a key bv with
    | none =>
      rw [hk1] at h
      cases h
    | some a1 =>
      rw [hk1] at h
      by_cases hkey : key = k
      · subst hkey
        simp only [odLookup, if_pos rfl] at hb
        injection hb with hb
        subst hb
        rw [dict_merge_preserves rest a1 m key hnd.1 h]
        exact dict_merge_key_scalar a key bv a1 hs hk1
      · simp only [odLookup, hkey, if_false] at hb
        exact ih a1 hnd.2 hb h

theorem pillarAt_congr (a1 a : Dict) (K k : String)
    (h : odLookup a1 K = odLookup a K) : pillarAt a1 K k = pillarAt a K k := by
  unfold pillarAt
  rw [h]

theorem pillarAt_none (a : Dict) (K k : String) (h : odLookup a K = none) :
    pillarAt a K k = none := by
  unfold pillarAt
  rw [h]

theorem pillarAt_vdict (a : Dict) (K k : String) (pd : Dict)
    (h : odLookup a K = some (Val.vdict pd)) : pillarAt a K k = odLookup pd k := by
  unfold pillarAt
  rw [h]

theorem pillarAt_other (a : Dict) (K k : String) (av : Val)
    (h : odLookup a K = some av) (hnd : ∀ pd, av = Val.vdict pd → False) :
    pillarAt a K k = none := by
  unfold pillarAt
  rw [h]
  cases av
  · rfl
  · rfl
  · rfl
  · rfl
  · rfl
  · exact (hnd _ rfl).elim

theorem dict_merge_key_vdict (a : Dict) (K : String) (db : Dict) (a1 : Dict) (k : String) (v : Val)
    (hnd : (db.map Prod.fst).Nodup) (hk : odLookup db k = some v) (hs : isScalar v = true)
    (h : dict_merge_key a K (Val.vdict db) = some a1) :
    ∃ pm, odLookup a1 K = some (Val.vdict pm) ∧ odLookup pm k = some v := by
  simp only [dict_merge_key] at h
  split at h
  · injection h with h2
    subst h2
    exact ⟨db, odLookup_odSet_self _ _ _, hk⟩
  · rename_i da heq
    split at h
    · cases h
    · rename_i m hm
      injection h with h2
      subst h2
      exact ⟨m, odLookup_odSet_self _ _ _, dict_merge_scalar_wins db da m k v hnd hk hs hm⟩
  · rename_i av hmf heq
    split at h
    · rename_i hb
      injection h with h2
      subst h2
      refine ⟨db, ?_, hk⟩
      rw [heq]
      exact congrArg some (valBeq_sound av (Val.vdict db) hb)
    · injection h with h2
      subst h2
      exact ⟨db, odLookup_odSet_self _ _ _, hk⟩

theorem dict_merge_vdict_wins (b : Dict) (a m : Dict) (K : String) (db : Dict)
    (k : String) (v : Val)
    (hbnd : (b.map Prod.fst).Nodup) (hKb : odLookup b K = some (Val.vdict db))
    (hdnd : (db.map Prod.fst).Nodup) (hk : odLookup db k = some v) (hs : isScalar v = true)
    (h : dict_merge a b = some m) :
    ∃ pm, odLookup m K = some (Val.vdict pm) ∧ odLookup pm k = some v := by
  induction b generalizing a with
  | nil => simp [odLookup] at hKb
  | cons hd rest ih =>
    obtain ⟨key, bv⟩ := hd
    rw [dict_merge_cons] at h
    simp only [List.map_cons, List.nodup_cons] at hbnd
    cases hk1 : dict_merge_key a key bv with
    | none =>
      rw [hk1] at h
      cases h
    | some a1 =>
      rw [hk1] at h
      by_cases hkey : key = K
      · subst hkey
        simp only [odLookup, if_pos rfl] at hKb
        injection hKb with hKb
        subst hKb
        obtain ⟨pm, hpm1, hpm2⟩ := dict_merge_key_vdict a key db a1 k v hdnd hk hs hk1
        refine ⟨pm, ?_, hpm2⟩
        rw [dict_merge_preserves rest a1 m key hbnd.1 h]
        exact hpm1
      · simp only [odLookup, hkey, if_false] at hKb
        exact ih a1 hbnd.2 hKb h

theorem dict_merge_key_vdict_preserve (a : Dict) (K : String) (db : Dict) (a1 : Dict)
    (k : String) (hk : odLookup db k = none)
    (h : dict_merge_key a K (Val.vdict db) = some a1) :
    pillarAt a1 K k = pillarAt a K k := by
  simp only [dict_merge_key] at h
  split at h
  · rename_i heq
    injection h with h2
    subst h2
    rw [pillarAt_vdict _ K k db (odLookup_odSet_self _ _ _), pillarAt_none _ K k heq, hk]
  · rename_i da heq
    split at h
    · cases h
    · rename_i m hm
      injection h with h2
      subst h2
      rw [pillarAt_vdict _ K k m (odLookup_odSet_self _ _ _), pillarAt_vdict _ K k da heq]
      exact dict_merge_preserves db da m k (not_mem_of_lookup_none db k hk) hm
  · rename_i av hmf heq
    split at h
    · injection h with h2
      subst h2
      rfl
    · injection h with h2
      subst h2
      rw [pillarAt_vdict _ K k db (odLookup_odSet_self _ _ _),
        pillarAt_other _ K k av heq (fun pd hpd => hmf pd hpd), hk]

theorem dict_merge_doc_preserves (d : Dict) (a m : Dict) (k : String) (pd : Dict)
    (hnd : (d.map Prod.fst).Nodup) (hp : odLookup d "pillars" = some (Val.vdict pd))
    (hk : odLookup pd k = none) (h : dict_merge a d = some m) :
    pillarAt m "pillars" k = pillarAt a "pillars" k := by
  induction d generalizing a with
  | nil => simp [odLookup] at hp
  | cons hd rest ih =>
    obtain ⟨key, bv⟩ := hd
    rw [dict_merge_cons] at h
    simp only [List.map_cons, List.nodup_cons] at hnd
    cases hk1 : dict_merge_key a key bv with
    | none =>
      rw [hk1] at h
      cases h
    | some a1 =>
      rw [hk1] at h
      by_cases hkey : key = "pillars"
      · subst hkey
        simp only [odLookup, if_pos rfl] at hp
        injection hp with hp
        subst hp
        have h1 : pillarAt m "pillars" k = pillarAt a1 "pillars" k := by
          apply pillarAt_congr
          exact dict_merge_preserves rest a1 m "pillars" hnd.1 h
        rw [h1]
        exact dict_merge_key_vdict_preserve a "pillars" pd a1 k hk hk1
      · simp only [odLookup, hkey, if_false] at hp
        have h1 : pillarAt m "pillars" k = pillarAt a1 "pillars" k := ih a1 hnd.2 hp h
        rw [h1]
        apply pillarAt_congr
        exact dict_merge_key_preserves a key bv a1 "pillars" hkey hk1

theorem foldMergePillars_append (xs : List Dict) (ys : List Dict) (acc : Dict) :
    foldMergePillars acc (xs ++ ys) =
      (match foldMergePillars acc xs with
       | none => none
       | some a1 => foldMergePillars a1 ys) := by
  induction xs generalizing acc with
  | nil => simp [foldMergePillars]
  | cons d rest ih =>
    simp only [List.cons_append, foldMergePillars]
    by_cases hp : (odLookup d "pillars").isSome
    · simp only [hp, if_true]
      cases hm : dict_merge acc d with
      | none => simp
      | some acc1 => simp [ih acc1]
    · simp only [hp, if_false]
      exact ih acc

theorem foldMergePillars_preserves (ds : List Dict) (acc m : Dict) (k : String)
    (hp : ∀ d ∈ ds, preservesPillarKey d k = true)
    (h : foldMergePillars acc ds = some m) :
    pillarAt m "pillars" k = pillarAt acc "pillars" k := by
  induction ds generalizing acc with
  | nil =>
    simp only [foldMergePillars] at h
    injection h with h2
    subst h2
    rfl
  | cons d rest ih =>
    simp only [foldMergePillars] at h
    have hpd := hp d (List.mem_cons_self d rest)
    have hprest : ∀ d2 ∈ rest, preservesPillarKey d2 k = true :=
      fun d2 hd2 => hp d2 (List.mem_cons_of_mem d hd2)
    unfold preservesPillarKey at hpd
    cases hl : odLookup d "pillars" with
    | none =>
      rw [hl] at h
      simp only [Option.isSome_none, Bool.false_eq_true, if_false] at h
      exact ih acc hprest h
    | some pv =>
      rw [hl] at h
      simp only [Option.isSome_some, if_true] at h
      cases hm : dict_merge acc d with
      | none =>
        rw [hm] at h
        cases h
      | some acc1 =>
        rw [hm] at h
        rw [ih acc1 hprest h]
        rw [hl] at hpd
        cases pv <;> try cases hpd
        rename_i pd
        simp only [Bool.and_eq_true, Option.isNone_iff_eq_none, decide_eq_true_eq] at hpd
        exact dict_merge_doc_preserves d acc acc1 k pd hpd.2 hl hpd.1 hm

theorem foldMergePillars_last_definer (V1 V2 : List Dict) (d : Dict) (acc m : Dict)
    (k : String) (pd : Dict) (v : Val)
    (hdn : (d.map Prod.fst).Nodup) (hpl : odLookup d "pillars" = some (Val.vdict pd))
    (hpn : (pd.map Prod.fst).Nodup)
    (hk : odLookup pd k = some v) (hs : isScalar v = true)
    (hV2 : ∀ d2 ∈ V2, preservesPillarKey d2 k = true)
    (h : foldMergePillars acc (V1 ++ d :: V2) = some m) :
    pillarAt m "pillars" k = some v := by
  rw [foldMergePillars_append] at h
  cases h1 : foldMergePillars acc V1 with
  | none =>
    rw [h1] at h
    cases h
  | some acc1 =>
    rw [h1] at h
    simp only [foldMergePillars, hpl, Option.isSome_some, if_true] at h
    cases hm : dict_merge acc1 d with
    | none =>
      rw [hm] at h
      cases h
    | some acc2 =>
      rw [hm] at h
      rw [foldMergePillars_preserves V2 acc2 m k hV2 h]
      obtain ⟨pm, hpm1, hpm2⟩ :=
        dict_merge_vdict_wins d acc1 acc2 "pillars" pd k v hdn hpl hpn hk hs hm
      rw [pillarAt_vdict _ _ _ pm hpm1]
      exact hpm2

/-- C3: for trees `a` and `b` sharing key `k` with sequence values,
`dict_merge a b` extends the `a`-side sequence with the `b`-side
sequence, except that a leading `"^"` sentinel on the `b` side is
dropped and the remaining `b`-side sequence replaces the `a`-side
sequence. -/
theorem dict_merge_list_extend_or_override
    (a b : Dict) (k : String) (xs : List Val) (y : Val) (t : List Val) (m : Dict)
    (hnd : (b.map Prod.fst).Nodup)
    (ha : odLookup a k = some (Val.vlist xs))
    (hb : odLookup b k = some (Val.vlist (y :: t)))
    (hm : dict_merge a b = some m) :
    odLookup m k = some (Val.vlist (if isCaret y then t else xs ++ y :: t)) := by
  induction b generalizing a with
  | nil => simp [odLookup] at hb
  | cons hd rest ih =>
    obtain ⟨key, bv⟩ := hd
    rw [dict_merge_cons] at hm
    simp only [List.map_cons, List.nodup_cons] at hnd
    cases hk1 : dict_merge_key a key bv with
    | none =>
      rw [hk1] at hm
      cases hm
    | some a1 =>
      rw [hk1] at hm
      by_cases hkey : key = k
      · subst hkey
        simp only [odLookup, if_pos rfl] at hb
        injection hb with hb
        subst hb
        rw [dict_merge_preserves rest a1 m key hnd.1 hm]
        simp only [dict_merge_key] at hk1
        split at hk1
        · rename_i heq
          rw [ha] at heq
          cases heq
        · rename_i xs1 heq
          rw [ha] at heq
          injection heq with heq
          injection heq with heq
          subst heq
          split at hk1
          · rename_i hc
            rw [if_pos hc]
            injection hk1 with hk1
            subst hk1
            exact odLookup_odSet_self _ _ _
          · rename_i hc
            rw [if_neg hc]
            injection hk1 with hk1
            subst hk1
            exact odLookup_odSet_self _ _ _
        · rename_i av hmf heq
          rw [ha] at heq
          injection heq with heq
          exact ((hmf xs) heq.symm).elim
      · simp only [odLookup, hkey, if_false] at hb
        refine ih a1 hnd.2 ?_ hb hm
        rw [dict_merge_key_preserves a key bv a1 k hkey hk1]
        exact ha

/-- Witness for C3 at the two concrete examples of the claim. -/
theorem dict_merge_list_extend_or_override_witness :
    odLookup [("x", Val.vlist [Val.vstr "a", Val.vstr "b"])] "x"
        = some (Val.vlist (if isCaret (Val.vstr "^") then [Val.vstr "a", Val.vstr "b"]
            else [Val.vstr "p", Val.vstr "q"] ++ Val.vstr "^" :: [Val.vstr "a", Val.vstr "b"])) ∧
    odLookup [("x", Val.vlist [Val.vstr "p", Val.vstr "q", Val.vstr "a", Val.vstr "b"])] "x"
        = some (Val.vlist (if isCaret (Val.vstr "a") then [Val.vstr "b"]
            else [Val.vstr "p", Val.vstr "q"] ++ Val.vstr "a" :: [Val.vstr "b"])) := by
  constructor
  · exact dict_merge_list_extend_or_override
      [("x", Val.vlist [Val.vstr "p", Val.vstr "q"])]
      [("x", Val.vlist [Val.vstr "^", Val.vstr "a", Val.vstr "b"])]
      "x" [Val.vstr "p", Val.vstr "q"] (Val.vstr "^") [Val.vstr "a", Val.vstr "b"]
      [("x", Val.vlist [Val.vstr "a", Val.vstr "b"])]
      (by decide) rfl rfl rfl
  · exact dict_merge_list_extend_or_override
      [("x", Val.vlist [Val.vstr "p", Val.vstr "q"])]
      [("x", Val.vlist [Val.vstr "a", Val.vstr "b"])]
      "x" [Val.vstr "p", Val.vstr "q"] (Val.vstr "a") [Val.vstr "b"]
      [("x", Val.vlist [Val.vstr "p", Val.vstr "q", Val.vstr "a", Val.vstr "b"])]
      (by decide) rfl rfl rfl

/-- C10: when a shared key holds a sequence in `a` and the empty
sequence in `b`, `dict_merge a b` raises (the `b[key][0]` index
error) instead of returning a merged tree. -/
theorem dict_merge_empty_seq_crash (a b : Dict) (k : String) (xs : List Val)
    (ha : odLookup a k = some (Val.vlist xs)) (hb : odLookup b k = some (Val.vlist [])) :
    dict_merge a b = none := by
  induction b generalizing a with
  | nil => simp [odLookup] at hb
  | cons hd rest ih =>
    obtain ⟨key, bv⟩ := hd
    rw [dict_merge_cons]
    by_cases hkey : key = k
    · subst hkey
      simp only [odLookup, if_pos rfl] at hb
      injection hb with hb
      subst hb
      have hnone : dict_merge_key a key (Val.vlist []) = none := by
        simp only [dict_merge_key, ha]
      rw [hnone]
    · simp only [odLookup, hkey, if_false] at hb
      cases hk1 : dict_merge_key a key bv with
      | none => rfl
      | some a1 =>
        refine ih a1 ?_ hb
        rw [dict_merge_key_preserves a key bv a1 k hkey hk1]
        exact ha

/-- Witness for C10 at a concrete input. -/
theorem dict_merge_empty_seq_crash_witness :
    dict_merge [("x", Val.vlist [Val.vstr "p"])] [("x", Val.vlist [])] = none :=
  dict_merge_empty_seq_crash
    [("x", Val.vlist [Val.vstr "p"])] [("x", Val.vlist [])] "x" [Val.vstr "p"] rfl rfl

/-- C8: when none of the three candidate storage paths of a class is
among the walked class files, `get_class` returns an empty document
and logs a warning (the boolean flag) instead of failing. -/
theorem get_class_missing_returns_empty (c : String) (sd : SaltData)
    (s si ss : String) (hp : get_class_paths c sd.path = (s, si, ss))
    (h1 : sd.classFiles.contains s = false)
    (h2 : sd.classFiles.contains ss = false)
    (h3 : sd.classFiles.contains si = false) :
    get_class c sd = (Val.vdict [], true) := by
  have m1 : ¬ s ∈ sd.classFiles := fun hm => by
    rw [(contains_iff _ _).mpr hm] at h1
    cases h1
  have m2 : ¬ ss ∈ sd.classFiles := fun hm => by
    rw [(contains_iff _ _).mpr hm] at h2
    cases h2
  have m3 : ¬ si ∈ sd.classFiles := fun hm => by
    rw [(contains_iff _ _).mpr hm] at h3
    cases h3
  unfold get_class
  rw [hp]
  simp [m1, m2, m3]

/-- Witness for C8 at a concrete input. -/
theorem get_class_missing_returns_empty_witness :
    get_class "nosuch" sdNoClassFiles = (Val.vdict [], true) :=
  get_class_missing_returns_empty "nosuch" sdNoClassFiles _ _ _ rfl rfl rfl rfl

theorem getLastD_append_eq (l1 l2 : List String) (d : String) :
    (l1 ++ l2).getLastD d = l2.getLastD (l1.getLastD d) := by
  induction l1 generalizing d with
  | nil => rfl
  | cons a rest ih => simp only [List.cons_append, List.getLastD_cons, ih]

theorem findInFiles_last (files : List String) (acc mid root : String) :
    findInFiles acc mid root files =
      ((files.filter (fun f => f = mid ++ ".yml")).map
        (fun f => root ++ "/" ++ f)).getLastD acc := by
  induction files generalizing acc with
  | nil => rfl
  | cons f rest ih =>
    by_cases hf : f = mid ++ ".yml"
    · rw [show findInFiles acc mid root (f :: rest)
          = findInFiles (root ++ "/" ++ f) mid root rest from by
            simp [findInFiles, hf]]
      rw [ih, List.filter_cons_of_pos (by simp [hf]), List.map_cons, List.getLastD_cons]
    · rw [show findInFiles acc mid root (f :: rest)
          = findInFiles acc mid root rest from by
            simp [findInFiles, hf]]
      rw [ih, List.filter_cons_of_neg (by simp [hf])]

/-- C9 (amended): the node-file search returns the LAST file named
`<node-id>.yml` in walk order (the loop reassigns `_file` on every
match), not the first. -/
theorem node_file_last_match (walk : List (String × List String)) (mid : String) :
    findMinionFile walk mid = (matchPaths walk mid).getLastD "" := by
  unfold findMinionFile
  have main : ∀ acc, findMinionFileGo acc mid walk = (matchPaths walk mid).getLastD acc := by
    induction walk with
    | nil => intro acc; rfl
    | cons rf rest ih =>
      intro acc
      obtain ⟨root, files⟩ := rf
      simp only [findMinionFileGo, matchPaths, List.flatMap_cons]
      rw [ih, getLastD_append_eq, findInFiles_last]
      rfl
  exact main ""

/-- C9 counterexample: with two node files of the same name in
different directories, the search selects the second (last in walk
order), not the first as the claim states. -/
theorem node_file_first_match_counterexample :
    findMinionFile [("/srv/nodes/a", ["n1.yml"]), ("/srv/nodes/b", ["n1.yml"])] "n1"
        = "/srv/nodes/b/n1.yml" ∧
      ¬ ("/srv/nodes/b/n1.yml" = "/srv/nodes/a/n1.yml" : Prop) :=
  ⟨rfl, by decide⟩

theorem dsar_cons (k : String) (v : Val) (rest : Dict) (old new : String) :
    dict_search_and_replace ((k, v) :: rest) old new
      = (k, dsarValue v old new) :: dict_search_and_replace rest old new := rfl

theorem dsarItems_cons (i : Val) (rest : List Val) (old new : String) :
    dsarItems (i :: rest) old new = dsarItem i old new :: dsarItems rest old new := rfl

theorem dsarValue_scalar (v : Val) (old new : String) (hs : isScalar v = true) :
    dsarValue v old new = (if valBeq v (Val.vstr old) then Val.vstr new else v) := by
  cases v
  · rfl
  · rfl
  · rfl
  · rfl
  · cases hs
  · cases hs

theorem dsar_self_all (n : Nat) :
    (∀ d : Dict, sizeOf d ≤ n → ∀ s, dict_search_and_replace d s s = d) ∧
    (∀ v : Val, sizeOf v ≤ n → ∀ s, dsarValue v s s = v) ∧
    (∀ xs : List Val, sizeOf xs ≤ n → ∀ s, dsarItems xs s s = xs) ∧
    (∀ i : Val, sizeOf i ≤ n → ∀ s, dsarItem i s s = i) := by
  induction n using Nat.strong_induction_on with
  | _ n ih =>
    have hval : ∀ v : Val, sizeOf v ≤ n → ∀ s, dsarValue v s s = v := by
      intro v hv s
      cases v with
      | vdict d =>
        have hd : sizeOf d < n := by
          have := Val.vdict.sizeOf_spec d
          omega
        rw [show dsarValue (Val.vdict d) s s = Val.vdict (dict_search_and_replace d s s) from rfl]
        rw [(ih (n - 1) (by omega)).1 d (by omega) s]
      | vlist xs =>
        have hx : sizeOf xs < n := by
          have := Val.vlist.sizeOf_spec xs
          omega
        rw [show dsarValue (Val.vlist xs) s s = Val.vlist (dsarItems xs s s) from rfl]
        rw [(ih (n - 1) (by omega)).2.2.1 xs (by omega) s]
      | vstr t =>
        rw [dsarValue_scalar (Val.vstr t) s s rfl]
        by_cases hb : valBeq (Val.vstr t) (Val.vstr s) = true
        · rw [if_pos hb, valBeq_sound _ _ hb]
        · rw [if_neg hb]
      | vnull => rfl
      | vbool b => rfl
      | vint i => rfl
    refine ⟨?_, hval, ?_, ?_⟩
    · intro d hd s
      induction d with
      | nil => rfl
      | cons hdp rest ihd =>
        obtain ⟨k, v⟩ := hdp
        have h1 : sizeOf v ≤ n := by
          have := List.cons.sizeOf_spec (k, v) rest
          have := Prod.mk.sizeOf_spec k v
          omega
        have h2 : sizeOf rest ≤ n := by
          have := List.cons.sizeOf_spec (k, v) rest
          omega
        rw [dsar_cons, hval v h1 s, ihd h2]
    · intro xs hx s
      induction xs with
      | nil => rfl
      | cons i rest ihx =>
        have h1 : sizeOf i ≤ n := by
          have := List.cons.sizeOf_spec i rest
          omega
        have h2 : sizeOf rest ≤ n := by
          have := List.cons.sizeOf_spec i rest
          omega
        rw [dsarItems_cons]
        have hitem : dsarItem i s s = i := by
          cases i with
          | vdict d =>
            have hd : sizeOf d < n := by
              have := Val.vdict.sizeOf_spec d
              have := List.cons.sizeOf_spec (Val.vdict d) rest
              omega
            rw [show dsarItem (Val.vdict d) s s
                = Val.vdict (dict_search_and_replace d s s) from rfl]
            rw [(ih (n - 1) (by omega)).1 d (by omega) s]
          | vstr t =>
            rw [show dsarItem (Val.vstr t) s s
                = (if t = s then Val.vstr s else Val.vstr t) from rfl]
            by_cases hb : t = s
            · rw [if_pos hb, hb]
            · rw [if_neg hb]
          | vnull => rfl
          | vbool b => rfl
          | vint m => rfl
          | vlist ys => rfl
        rw [hitem, ihx h2]
    · intro i hi s
      cases i with
      | vdict d =>
        have hd : sizeOf d < n := by
          have := Val.vdict.sizeOf_spec d
          omega
        rw [show dsarItem (Val.vdict d) s s
            = Val.vdict (dict_search_and_replace d s s) from rfl]
        rw [(ih (n - 1) (by omega)).1 d (by omega) s]
      | vstr t =>
        rw [show dsarItem (Val.vstr t) s s
            = (if t = s then Val.vstr s else Val.vstr t) from rfl]
        by_cases hb : t = s
        · rw [if_pos hb, hb]
        · rw [if_neg hb]
      | vnull => rfl
      | vbool b => rfl
      | vint m => rfl
      | vlist ys => rfl

theorem dsar_self (d : Dict) (s : String) : dict_search_and_replace d s s = d :=
  (dsar_self_all (sizeOf d)).1 d (Nat.le_refl _) s

theorem strReplaceGo_self (f : Nat) : ∀ (s pat : List Char), strReplaceGo f s pat pat = s := by
  induction f with
  | zero => intro s pat; rfl
  | succ f ih =>
    intro s pat
    cases s with
    | nil => rfl
    | cons c cs =>
      rw [strReplaceGo]
      by_cases hp : listStarts pat (c :: cs) = true
      · rw [if_pos hp, ih]
        have append_drop : ∀ (p s2 : List Char), listStarts p s2 = true →
            p ++ s2.drop p.length = s2 := by
          intro p
          induction p with
          | nil => intro s2 _; simp
          | cons x xs ihp =>
            intro s2 hs
            cases s2 with
            | nil => cases hs
            | cons y ys =>
              simp only [listStarts, Bool.and_eq_true, decide_eq_true_eq] at hs
              simp only [List.cons_append, List.length_cons, List.drop_succ_cons]
              rw [hs.1, ihp ys hs.2]
        exact append_drop pat (c :: cs) hp
      · rw [if_neg hp, ih]

theorem strReplace_self (s pat : String) : strReplace s pat pat = s := by
  unfold strReplace
  rw [strReplaceGo_self]

theorem fvteGo_unresolvable : ∀ (segs : List String) (a : Val) (v : String),
    unresolvable a segs = true → find_value_to_expand_go a segs v = some (Val.vstr v) := by
  intro segs
  induction segs with
  | nil =>
    intro a v h
    simp [unresolvable] at h
  | cons i rest ih =>
    intro a v h
    cases a with
    | vdict d =>
      cases hl : odLookup d i with
      | none =>
        rw [show find_value_to_expand_go (Val.vdict d) (i :: rest) v
            = (match odLookup d i with
               | some a1 => find_value_to_expand_go a1 rest v
               | none => some (Val.vstr v)) from rfl, hl]
      | some a1 =>
        rw [show find_value_to_expand_go (Val.vdict d) (i :: rest) v
            = (match odLookup d i with
               | some a1 => find_value_to_expand_go a1 rest v
               | none => some (Val.vstr v)) from rfl, hl]
        rw [show unresolvable (Val.vdict d) (i :: rest)
            = (match odLookup d i with
               | none => true
               | some a1 => unresolvable a1 rest) from rfl, hl] at h
        exact ih a1 v h
    | vnull => cases h
    | vbool b => cases h
    | vint m => cases h
    | vstr t => cases h
    | vlist xs => cases h

theorem faprGo_unresolved (ms : List String) : ∀ (s : String) (v : Val) (b : Dict),
    (v = Val.vstr s ∨ asPyStr v = none) →
    (∀ m ∈ ms, ¬ m.data.head? = some '\\' ∧
        unresolvable (Val.vdict b) (refPathSegs (tokenOf m)) = true) →
    find_and_process_re_go ms s v b = some b := by
  induction ms with
  | nil => intro s v b _ _; rfl
  | cons m rest ih =>
    intro s v b hv hm
    have hm1 := hm m (List.mem_cons_self m rest)
    have hmrest : ∀ m2 ∈ rest, ¬ m2.data.head? = some '\\' ∧
        unresolvable (Val.vdict b) (refPathSegs (tokenOf m2)) = true :=
      fun m2 h2 => hm m2 (List.mem_cons_of_mem m h2)
    rw [find_and_process_re_go]
    rw [if_neg hm1.1]
    by_cases hd : m.data.head? = some '$'
    · rw [if_pos hd]
      have htok : tokenOf m = m := by
        unfold tokenOf
        rw [if_pos hd]
      have hres : find_value_to_expand (Val.vdict b) m = some (Val.vstr m) := by
        unfold find_value_to_expand
        refine fvteGo_unresolvable _ _ _ ?_
        have h2 := hm1.2
        rw [htok] at h2
        exact h2
      rw [hres]
      show find_and_process_re_go rest
          (match asPyStr v with
           | some vs => strReplace vs m m
           | none => strReplace s m m)
          (Val.vstr (match asPyStr v with
           | some vs => strReplace vs m m
           | none => strReplace s m m))
          (dict_search_and_replace b s
            (match asPyStr v with
             | some vs => strReplace vs m m
             | none => strReplace s m m)) = some b
      rcases hv with hv | hv
      · subst hv
        have hred : (match asPyStr (Val.vstr s) with
            | some vs => strReplace vs m m
            | none => strReplace s m m) = s := strReplace_self s m
        rw [hred, dsar_self]
        exact ih s (Val.vstr s) b (Or.inl rfl) hmrest
      · have hred : (match asPyStr v with
            | some vs => strReplace vs m m
            | none => strReplace s m m) = s := by
          rw [hv]
          exact strReplace_self s m
        rw [hred, dsar_self]
        exact ih s (Val.vstr s) b (Or.inl rfl) hmrest
    · rw [if_neg hd]
      have htok : tokenOf m = String.mk (m.data.drop 1) := by
        unfold tokenOf
        rw [if_neg hd]
      have hres : find_value_to_expand (Val.vdict b) (String.mk (m.data.drop 1))
          = some (Val.vstr (String.mk (m.data.drop 1))) := by
        unfold find_value_to_expand
        refine fvteGo_unresolvable _ _ _ ?_
        have h2 := hm1.2
        rw [htok] at h2
        exact h2
      rw [hres]
      show find_and_process_re_go rest (strReplace s (String.mk (m.data.drop 1)) (String.mk (m.data.drop 1))) v
          (dict_search_and_replace b s
            (strReplace s (String.mk (m.data.drop 1)) (String.mk (m.data.drop 1)))) = some b
      rw [strReplace_self, dsar_self]
      exact ih s v b hv hmrest

/-- C7: a reference whose colon path hits an absent key while
descending the composed tree is left as-is: `find_and_process_re`
returns the tree unchanged and raises no error.  The hypotheses say
every match of the value either is a head token or carries a
non-backslash leading character, and resolves to a missing path. -/
theorem unresolved_reference_left_as_is (s : String) (v : Val) (k : String) (b : Dict)
    (hv : v = Val.vstr s ∨ asPyStr v = none)
    (hm : ∀ m ∈ findMatches s, ¬ m.data.head? = some '\\' ∧
        unresolvable (Val.vdict b) (refPathSegs (tokenOf m)) = true) :
    find_and_process_re s v k b = some b := by
  unfold find_and_process_re
  exact faprGo_unresolved (findMatches s) s v b hv hm

/-- Witness for C7 at the concrete example of the claim. -/
theorem unresolved_reference_left_as_is_witness :
    find_and_process_re "$\x7bmissing:key\x7d" (Val.vstr "$\x7bmissing:key\x7d") "c"
        [("a", Val.vstr "x")]
      = some [("a", Val.vstr "x")] :=
  unresolved_reference_left_as_is "$\x7bmissing:key\x7d" (Val.vstr "$\x7bmissing:key\x7d")
    "c" [("a", Val.vstr "x")] (Or.inl rfl) (by decide)

theorem odLookup_dsar (d : Dict) (old new : String) (k : String) :
    odLookup (dict_search_and_replace d old new) k
      = (odLookup d k).map (fun v => dsarValue v old new) := by
  induction d with
  | nil => rfl
  | cons hd rest ih =>
    obtain ⟨k1, v1⟩ := hd
    rw [dsar_cons]
    by_cases hk : k1 = k
    · simp [odLookup, hk]
    · simp only [odLookup, hk, if_false]
      exact ih

theorem get_dsarItems (xs : List Val) (old new : String) (n : Nat) :
    (dsarItems xs old new).get? n = (xs.get? n).map (fun i => dsarItem i old new) := by
  induction xs generalizing n with
  | nil => rfl
  | cons i rest ih =>
    rw [dsarItems_cons]
    cases n with
    | zero => rfl
    | succ n =>
      simp only [List.get?_cons_succ]
      exact ih n

theorem getAtVal_nil (v : Val) : getAtVal v [] = some v := by
  cases v <;> rfl

theorem dsar_covered_all (n : Nat) :
    ∀ p : List PathElem, p.length ≤ n → coveredPath p = true →
      ∀ (old new t : String),
      (∀ v : Val, getAtVal v p = some (Val.vstr t) →
        getAtVal (dsarValue v old new) p
          = some (Val.vstr (if t = old then new else t))) ∧
      (∀ v : Val, (p = [] ∨ ∃ k1 rest, p = PathElem.key k1 :: rest) →
        getAtVal v p = some (Val.vstr t) →
        getAtVal (dsarItem v old new) p
          = some (Val.vstr (if t = old then new else t))) := by
  induction n with
  | zero =>
    intro p hp hc old new t
    rw [List.length_eq_zero.mp (Nat.le_zero.mp hp)]
    constructor
    · intro v hv
      rw [getAtVal_nil] at hv
      injection hv with hv
      subst hv
      rw [show dsarValue (Val.vstr t) old new
          = (if valBeq (Val.vstr t) (Val.vstr old) then Val.vstr new else Val.vstr t) from rfl]
      by_cases hto : t = old
      · rw [if_pos hto, if_pos (by simp [valBeq, hto])]
        exact getAtVal_nil _
      · rw [if_neg hto, if_neg (by simp [valBeq, hto])]
        exact getAtVal_nil _
    · intro v _ hv
      rw [getAtVal_nil] at hv
      injection hv with hv
      subst hv
      rw [show dsarItem (Val.vstr t) old new
          = (if t = old then Val.vstr new else Val.vstr t) from rfl]
      by_cases hto : t = old
      · rw [if_pos hto, if_pos hto]
        exact getAtVal_nil _
      · rw [if_neg hto, if_neg hto]
        exact getAtVal_nil _
  | succ n ih =>
    intro p hp hc old new t
    have hdict : ∀ (d : Dict) (k1 : String) (rest : List PathElem),
        p = PathElem.key k1 :: rest →
        getAtVal (Val.vdict d) p = some (Val.vstr t) →
        getAtVal (Val.vdict (dict_search_and_replace d old new)) p
          = some (Val.vstr (if t = old then new else t)) := by
      intro d k1 rest hpe hv
      subst hpe
      rw [show getAtVal (Val.vdict d) (PathElem.key k1 :: rest)
          = (match odLookup d k1 with
             | some v1 => getAtVal v1 rest
             | none => none) from rfl] at hv
      cases hl : odLookup d k1 with
      | none =>
        rw [hl] at hv
        cases hv
      | some v1 =>
        rw [hl] at hv
        rw [show getAtVal (Val.vdict (dict_search_and_replace d old new))
              (PathElem.key k1 :: rest)
            = (match odLookup (dict_search_and_replace d old new) k1 with
               | some w => getAtVal w rest
               | none => none) from rfl]
        rw [odLookup_dsar, hl]
        have hrest : rest.length ≤ n := by
          simp only [List.length_cons] at hp
          omega
        have hcrest : coveredPath rest = true := by
          rw [show coveredPath (PathElem.key k1 :: rest) = coveredPath rest from by
            cases rest with
            | nil => rfl
            | cons e rest2 => cases e <;> rfl] at hc
          exact hc
        exact ((ih rest hrest hcrest old new t).1 v1 hv)
    constructor
    · intro v hv
      cases p with
      | nil =>
        exact ((ih [] (Nat.zero_le n) rfl old new t).1 v hv)
      | cons e rest =>
        cases e with
        | key k1 =>
          cases v with
          | vdict d => exact hdict d k1 rest rfl hv
          | vnull => cases hv
          | vbool b2 => cases hv
          | vint m2 => cases hv
          | vstr s2 => cases hv
          | vlist xs => cases hv
        | idx i =>
          cases v with
          | vlist xs =>
            rw [show getAtVal (Val.vlist xs) (PathElem.idx i :: rest)
                = (match xs.get? i with
                   | some v1 => getAtVal v1 rest
                   | none => none) from rfl] at hv
            cases hg : xs.get? i with
            | none =>
              rw [hg] at hv
              cases hv
            | some v1 =>
              rw [hg] at hv
              rw [show dsarValue (Val.vlist xs) old new
                  = Val.vlist (dsarItems xs old new) from rfl]
              rw [show getAtVal (Val.vlist (dsarItems xs old new)) (PathElem.idx i :: rest)
                  = (match (dsarItems xs old new).get? i with
                     | some w => getAtVal w rest
                     | none => none) from rfl]
              rw [get_dsarItems, hg]
              have hrest : rest.length ≤ n := by
                simp only [List.length_cons] at hp
                omega
              have hshape : rest = [] ∨ ∃ k1 r2, rest = PathElem.key k1 :: r2 := by
                cases rest with
                | nil => exact Or.inl rfl
                | cons e2 r2 =>
                  cases e2 with
                  | key k1 => exact Or.inr ⟨k1, r2, rfl⟩
                  | idx j => cases hc
              have hcrest : coveredPath rest = true := by
                rcases hshape with hsh | ⟨k1, r2, hsh⟩ <;> subst hsh
                · rfl
                · exact hc
              exact ((ih rest hrest hcrest old new t).2 v1 hshape hv)
          | vnull => cases hv
          | vbool b2 => cases hv
          | vint m2 => cases hv
          | vstr s2 => cases hv
          | vdict d => cases hv
    · intro v hshape hv
      rcases hshape with hsh | ⟨k1, rest, hsh⟩
      · subst hsh
        exact ((ih [] (Nat.zero_le n) rfl old new t).2 v (Or.inl rfl) hv)
      · subst hsh
        cases v with
        | vdict d => exact hdict d k1 rest rfl hv
        | vnull => cases hv
        | vbool b2 => cases hv
        | vint m2 => cases hv
        | vstr s2 => cases hv
        | vlist xs => cases hv

/-- C6 (amended): for a string value whose single match is a head
token resolving to a string, `find_and_process_re` substitutes the
resolved value into the string and hands the tree to
`dict_search_and_replace`, which rewrites every value equal to the
original unresolved string at any dict depth, at dict values inside
lists, and at string elements of lists reachable through dicts — but
not inside lists nested directly within lists. -/
theorem variable_substitution_granularity (b : Dict) (s k m r : String)
    (hm : findMatches s = [m]) (h0 : m.data.head? = some '$')
    (hres : find_value_to_expand (Val.vdict b) m = some (Val.vstr r)) :
    find_and_process_re s (Val.vstr s) k b
        = some (dict_search_and_replace b s (strReplace s m r)) ∧
      ∀ (p : List PathElem) (t : String), coveredPath p = true →
        getAtVal (Val.vdict b) p = some (Val.vstr t) →
        getAtVal (Val.vdict (dict_search_and_replace b s (strReplace s m r))) p
          = some (Val.vstr (if t = s then strReplace s m r else t)) := by
  constructor
  · unfold find_and_process_re
    rw [hm, find_and_process_re_go]
    rw [if_neg (by rw [h0]; intro hh; injection hh with hh; cases hh)]
    rw [if_pos h0, hres]
    rfl
  · intro p t hc hv
    have main := ((dsar_covered_all p.length p (Nat.le_refl _) hc s (strReplace s m r) t).1
      (Val.vdict b) hv)
    exact main

/-- Witness for C6 at a concrete tree where two unrelated keys hold
the byte-identical unresolved string. -/
theorem variable_substitution_granularity_witness :
    find_and_process_re "$\x7ba:b\x7d" (Val.vstr "$\x7ba:b\x7d") "c" exprTreeC6w
        = some (dict_search_and_replace exprTreeC6w "$\x7ba:b\x7d"
            (strReplace "$\x7ba:b\x7d" "$\x7ba:b\x7d" "v")) ∧
      getAtVal (Val.vdict (dict_search_and_replace exprTreeC6w "$\x7ba:b\x7d"
            (strReplace "$\x7ba:b\x7d" "$\x7ba:b\x7d" "v"))) [PathElem.key "c2"]
        = some (Val.vstr (if "$\x7ba:b\x7d" = "$\x7ba:b\x7d"
            then strReplace "$\x7ba:b\x7d" "$\x7ba:b\x7d" "v" else "$\x7ba:b\x7d")) := by
  have main := variable_substitution_granularity exprTreeC6w "$\x7ba:b\x7d" "c"
    "$\x7ba:b\x7d" "v" rfl rfl rfl
  exact ⟨main.1, main.2 [PathElem.key "c2"] "$\x7ba:b\x7d" rfl rfl⟩

/-- C6 counterexample: the variable expander resolves the token in
`c` but the byte-identical occurrence of the original string inside a
list nested directly in a list (under `d`) is NOT replaced, so the
tree-wide replacement is not performed at every occurrence anywhere
in the tree. -/
theorem tree_wide_replace_counterexample :
    expand_variables exprTreeC6
        = some [("a", Val.vdict [("b", Val.vstr "v")]),
                ("c", Val.vstr "v"),
                ("d", Val.vlist [Val.vlist [Val.vstr "$\x7ba:b\x7d"]])] ∧
      ¬ (Val.vlist [Val.vlist [Val.vstr "$\x7ba:b\x7d"]]
          = Val.vlist [Val.vlist [Val.vstr "v"]]) :=
  ⟨rfl, val_ne_of_beq_false _ _ rfl⟩

theorem match_class_glob_universe (c : String) (sd : SaltData) :
    ∀ c2 ∈ match_class_glob c sd, c2 ∈ classUniverse sd := by
  intro c2 hc2
  unfold match_class_glob at hc2
  simp only [List.map_append, List.mem_append, List.mem_map, List.mem_filter] at hc2
  unfold classUniverse
  rcases hc2 with (⟨f, ⟨hf, _⟩, he⟩ | ⟨f, ⟨hf, _⟩, he⟩) | ⟨f, ⟨hf, _⟩, he⟩ <;>
    exact List.mem_map.mpr ⟨f, hf, he⟩

theorem dedupKeepFirst_subset (l : List String) :
    ∀ (seenl : List String) (c : String), c ∈ dedupKeepFirst seenl l → c ∈ l := by
  induction l with
  | nil => intro seenl c h; cases h
  | cons x rest ih =>
    intro seenl c h
    unfold dedupKeepFirst at h
    by_cases hx : seenl.contains x = true
    · rw [if_pos hx] at h
      exact List.mem_cons_of_mem x (ih seenl c h)
    · rw [if_neg hx] at h
      rcases List.mem_cons.mp h with h2 | h2
      · exact h2 ▸ List.mem_cons_self x rest
      · exact List.mem_cons_of_mem x (ih (x :: seenl) c h2)

theorem expand_classes_glob_go_universe (lst : List Val) (sd : SaltData) (out : List String)
    (h : expand_classes_glob_go lst sd = some out) :
    ∀ c ∈ out, c ∈ classUniverse sd := by
  induction lst generalizing out with
  | nil =>
    unfold expand_classes_glob_go at h
    injection h with h2
    subst h2
    intro c hc
    cases hc
  | cons v rest ih =>
    cases v <;> unfold expand_classes_glob_go at h <;> try cases h
    rename_i s
    cases hgo : expand_classes_glob_go rest sd with
    | none =>
      rw [hgo] at h
      cases h
    | some r =>
      rw [hgo] at h
      injection h with h2
      subst h2
      intro c hc
      rcases List.mem_append.mp hc with hc | hc
      · exact match_class_glob_universe s sd c hc
      · exact ih r hgo c hc

theorem expand_classes_glob_universe (lst : List Val) (sd : SaltData) (out : List String)
    (h : expand_classes_glob lst sd = some out) :
    ∀ c ∈ out, (classUniverse sd).contains c = true := by
  unfold expand_classes_glob at h
  cases hgo : expand_classes_glob_go lst sd with
  | none =>
    rw [hgo] at h
    cases h
  | some all =>
    rw [hgo] at h
    injection h with h2
    subst h2
    intro c hc
    exact (contains_iff _ _).mpr
      (expand_classes_glob_go_universe lst sd all hgo c (dedupKeepFirst_subset all [] c hc))

theorem filter_length_imp {α : Type} (p q : α → Bool) (h : ∀ a, p a = true → q a = true) :
    ∀ l : List α, (l.filter p).length ≤ (l.filter q).length := by
  intro l
  induction l with
  | nil => simp
  | cons a rest ih =>
    by_cases hp : p a = true
    · rw [List.filter_cons_of_pos hp, List.filter_cons_of_pos (h a hp)]
      simpa using ih
    · rw [List.filter_cons_of_neg (by simp [hp])]
      by_cases hq : q a = true
      · rw [List.filter_cons_of_pos hq]
        exact Nat.le_trans ih (Nat.le_succ _)
      · rw [List.filter_cons_of_neg (by simp [hq])]
        exact ih

theorem contains_append_one (seen : List String) (c x : String) :
    (seen ++ [c]).contains x = (seen.contains x || (x = c : Bool)) := by
  by_cases h1 : x ∈ seen
  · rw [(contains_iff _ _).mpr (List.mem_append_left _ h1), (contains_iff _ _).mpr h1]
    rfl
  · have h1c : seen.contains x = false := by
      cases hcc : seen.contains x
      · rfl
      · exact absurd ((contains_iff _ _).mp hcc) h1
    rw [h1c]
    by_cases h2 : x = c
    · subst h2
      rw [(contains_iff _ _).mpr (List.mem_append_right _ (List.mem_singleton.mpr rfl))]
      simp
    · have : ¬ x ∈ seen ++ [c] := by
        intro hm
        rcases List.mem_append.mp hm with hm | hm
        · exact h1 hm
        · exact h2 (List.mem_singleton.mp hm)
      have hf : (seen ++ [c]).contains x = false := by
        cases hcc : (seen ++ [c]).contains x
        · rfl
        · exact absurd ((contains_iff _ _).mp hcc) this
      rw [hf]
      simp [h2]

theorem unseen_mono (sd : SaltData) (seen : List String) (c : String) :
    unseenCount sd (seen ++ [c]) ≤ unseenCount sd seen := by
  unfold unseenCount
  apply filter_length_imp
  intro x hx
  rw [contains_append_one] at hx
  simp only [Bool.not_eq_true', Bool.or_eq_false_iff] at hx
  simp only [hx.1, Bool.not_false]

theorem unseen_mono_many (sd : SaltData) (seen : List String) :
    ∀ extra : List String, unseenCount sd (seen ++ extra) ≤ unseenCount sd seen := by
  intro extra
  induction extra generalizing seen with
  | nil => simp
  | cons c rest ih =>
    have h1 : seen ++ c :: rest = (seen ++ [c]) ++ rest := by simp
    rw [h1]
    exact Nat.le_trans (ih (seen ++ [c])) (unseen_mono sd seen c)

theorem unseen_decrease (sd : SaltData) (seen : List String) (c : String)
    (hc : (classUniverse sd).contains c = true) (hs : ¬ c ∈ seen) :
    unseenCount sd (seen ++ [c]) < unseenCount sd seen := by
  unfold unseenCount
  have hcm : c ∈ (classUniverse sd).dedup := List.mem_dedup.mpr ((contains_iff _ _).mp hc)
  have main : ∀ l : List String, c ∈ l →
      (l.filter (fun x => !((seen ++ [c]).contains x))).length
        < (l.filter (fun x => !(seen.contains x))).length := by
    intro l
    induction l with
    | nil => intro h; cases h
    | cons x rest ih =>
      intro hin
      by_cases hx : x = c
      · subst hx
        have hnew : (!((seen ++ [x]).contains x)) = false := by
          rw [contains_append_one]
          simp
        have hold : (!(seen.contains x)) = true := by
          cases hcc : seen.contains x
          · rfl
          · exact absurd ((contains_iff _ _).mp hcc) hs
        rw [List.filter_cons, List.filter_cons, if_neg (by simp [hnew]), if_pos hold]
        refine Nat.lt_succ_of_le ?_
        apply filter_length_imp
        intro z hz
        rw [contains_append_one] at hz
        simp only [Bool.not_eq_true', Bool.or_eq_false_iff] at hz
        simp only [hz.1, Bool.not_false]
      · have hin2 : c ∈ rest := by
          rcases List.mem_cons.mp hin with h2 | h2
          · exact absurd h2.symm hx
          · exact h2
        have hsame : (!((seen ++ [c]).contains x)) = (!(seen.contains x)) := by
          rw [contains_append_one]
          simp [hx]
        rw [List.filter_cons, List.filter_cons, hsame]
        by_cases hold : (!(seen.contains x)) = true
        · rw [if_pos hold, if_pos hold]
          exact Nat.succ_lt_succ (ih hin2)
        · rw [if_neg hold, if_neg hold]
          exact ih hin2
  exact main _ hcm

theorem unseen_le_files (sd : SaltData) (seen : List String) :
    unseenCount sd seen ≤ sd.classFiles.length := by
  unfold unseenCount
  calc ((classUniverse sd).dedup.filter _).length
      ≤ (classUniverse sd).dedup.length := List.length_filter_le _ _
    _ ≤ (classUniverse sd).length := (List.dedup_sublist _).length_le
    _ = sd.classFiles.length := by unfold classUniverse; rw [List.length_map]

theorem nodup_snoc {α : Type} (l : List α) (a : α) (h1 : l.Nodup) (h2 : ¬ a ∈ l) :
    (l ++ [a]).Nodup := by
  simp [List.nodup_append, h1]
  exact h2

theorem moveToEnd_head {α : Type} (k : String) (v : α) (l : List (String × α)) :
    moveToEnd ((k, v) :: l) k = l ++ [(k, v)] := by
  simp [moveToEnd, odLookup, odRemove]

theorem eciLoop_shape (sd : SaltData) (recur : Dict → List String → Dict → Val → Res ExpRes)
    (hrec : ∀ (s : List String) (p : Dict) (c : Val) (l1 : List (String × Dict))
      (s1 : List String) (q1 : Dict), s.Nodup → recur [] s p c = Res.ok (l1, s1, q1) →
      ∃ δ, s1 = s ++ δ ∧ (s ++ δ).Nodup ∧
        (∀ c2 ∈ δ, (classUniverse sd).contains c2 = true) ∧
        List.Perm (l1.map Prod.fst) δ) :
    ∀ (lst seen : List String) (pillar : Dict) (acc l : List (String × Dict))
      (seen1 : List String) (p1 : Dict),
      (∀ c ∈ lst, (classUniverse sd).contains c = true) →
      seen.Nodup →
      (∀ k ∈ acc.map Prod.fst, k ∈ seen) →
      eciLoop sd recur lst seen pillar acc = Res.ok (l, seen1, p1) →
      ∃ δ, seen1 = seen ++ δ ∧ (seen ++ δ).Nodup ∧
        (∀ c ∈ δ, (classUniverse sd).contains c = true) ∧
        List.Perm (l.map Prod.fst) (acc.map Prod.fst ++ δ) := by
  intro lst
  induction lst with
  | nil =>
    intro seen pillar acc l seen1 p1 _ hsn _ h
    rw [eciLoop] at h
    injection h with h2
    injection h2 with hl h3
    injection h3 with hs hp
    refine ⟨[], ?_, by simpa using hsn, ?_, ?_⟩
    · rw [← hs]
      simp
    · intro c hc
      exact absurd hc (List.not_mem_nil c)
    · rw [← hl]
      simp
  | cons klass rest ih =>
    intro seen pillar acc l seen1 p1 hlst hsn hacc h
    have hlst2 : ∀ c ∈ rest, (classUniverse sd).contains c = true :=
      fun c hc => hlst c (List.mem_cons_of_mem _ hc)
    rw [eciLoop] at h
    split at h
    · exact ih seen pillar acc l seen1 p1 hlst2 hsn hacc h
    · rename_i hsk
      have hknotin : ¬ klass ∈ seen := fun hm => hsk ((contains_iff _ _).mpr hm)
      have hsn2 : (seen ++ [klass]).Nodup := nodup_snoc seen klass hsn hknotin
      split at h
      · exact Res.noConfusion h
      · rename_i docd hdoc
        split at h
        · exact Res.noConfusion h
        · rename_i pillar1 hmp
          split at h
          · rename_i hcl
            have hup : odUpdate acc [(klass, docd)] = acc ++ [(klass, docd)] := by
              apply odUpdate_append_disjoint
              · simp
              · intro k2 hk2 hk2a
                simp at hk2
                rw [hk2] at hk2a
                exact hknotin (hacc klass hk2a)
            rw [hup] at h
            have hacc2 : ∀ k ∈ (acc ++ [(klass, docd)]).map Prod.fst, k ∈ seen ++ [klass] := by
              intro k hk
              rw [List.map_append] at hk
              rcases List.mem_append.mp hk with hk | hk
              · exact List.mem_append_left _ (hacc k hk)
              · simp at hk
                subst hk
                exact List.mem_append_right _ (by simp)
            obtain ⟨δ2, hseq, hnd2, huniv2, hperm2⟩ :=
              ih (seen ++ [klass]) pillar1 (acc ++ [(klass, docd)]) l seen1 p1 hlst2 hsn2 hacc2 h
            refine ⟨klass :: δ2, ?_, ?_, ?_, ?_⟩
            · rw [hseq]
              simp
            · have heq2 : seen ++ klass :: δ2 = (seen ++ [klass]) ++ δ2 := by simp
              rw [heq2]
              exact hnd2
            · intro c hc
              rcases List.mem_cons.mp hc with hc | hc
              · rw [hc]
                exact hlst klass (List.mem_cons_self _ _)
              · exact huniv2 c hc
            · have he : (acc ++ [(klass, docd)]).map Prod.fst ++ δ2
                  = acc.map Prod.fst ++ klass :: δ2 := by
                simp
              rw [← he]
              exact hperm2
          · rename_i cval hcl
            split at h
            · rename_i nested seen2 pillar2 hr
              obtain ⟨δ1, hs2eq, hnd1, huniv1, hperm1⟩ :=
                hrec (seen ++ [klass]) pillar1 cval nested seen2 pillar2 hsn2 hr
              have hδ1nd : δ1.Nodup := (List.nodup_append.mp hnd1).2.1
              have hdisj : List.Disjoint (seen ++ [klass]) δ1 := (List.nodup_append.mp hnd1).2.2
              have hnkeys : (nested.map Prod.fst).Nodup := hperm1.symm.nodup hδ1nd
              have hknested : ¬ klass ∈ nested.map Prod.fst := by
                intro hm
                exact hdisj (List.mem_append_right seen (by simp)) (hperm1.subset hm)
              have hinner : odUpdate [(klass, docd)] nested = (klass, docd) :: nested :=
                odUpdate_append_disjoint nested [(klass, docd)] hnkeys (by
                  intro k2 hk2 hk2m
                  simp at hk2m
                  subst hk2m
                  exact hknested hk2)
              have hmv : moveToEnd ((klass, docd) :: nested) klass = nested ++ [(klass, docd)] :=
                moveToEnd_head klass docd nested
              have hkdkeys : (nested ++ [(klass, docd)]).map Prod.fst
                  = nested.map Prod.fst ++ [klass] := by
                simp
              have hkdnd : ((nested ++ [(klass, docd)]).map Prod.fst).Nodup := by
                rw [hkdkeys]
                exact nodup_snoc _ klass hnkeys hknested
              have hδ1new : ∀ x ∈ δ1, ¬ x ∈ seen :=
                fun x hx hm => hdisj (List.mem_append_left _ hm) hx
              have houter : odUpdate acc (nested ++ [(klass, docd)])
                  = acc ++ (nested ++ [(klass, docd)]) := by
                apply odUpdate_append_disjoint _ _ hkdnd
                intro k2 hk2 hk2a
                rw [hkdkeys] at hk2
                rcases List.mem_append.mp hk2 with hk2 | hk2
                · exact hδ1new k2 (hperm1.subset hk2) (hacc k2 hk2a)
                · simp at hk2
                  rw [hk2] at hk2a
                  exact hknotin (hacc klass hk2a)
              rw [hinner, hmv, houter] at h
              have hsn2b : seen2.Nodup := by
                rw [hs2eq]
                exact hnd1
              have hacc3 : ∀ k ∈ (acc ++ (nested ++ [(klass, docd)])).map Prod.fst,
                  k ∈ seen2 := by
                intro k hk
                rw [List.map_append, hkdkeys] at hk
                rw [hs2eq]
                rcases List.mem_append.mp hk with hk | hk
                · exact List.mem_append_left _ (List.mem_append_left _ (hacc k hk))
                · rcases List.mem_append.mp hk with hk | hk
                  · exact List.mem_append_right _ (hperm1.subset hk)
                  · simp at hk
                    subst hk
                    exact List.mem_append_left _ (List.mem_append_right _ (by simp))
              obtain ⟨δ2, hs1eq, hnd2, huniv2, hperm2⟩ :=
                ih seen2 pillar2 (acc ++ (nested ++ [(klass, docd)])) l seen1 p1
                  hlst2 hsn2b hacc3 h
              refine ⟨klass :: (δ1 ++ δ2), ?_, ?_, ?_, ?_⟩
              · rw [hs1eq, hs2eq]
                simp
              · have heq3 : seen ++ klass :: (δ1 ++ δ2) = ((seen ++ [klass]) ++ δ1) ++ δ2 := by
                  simp
                rw [heq3, ← hs2eq]
                exact hnd2
              · intro c hc
                rcases List.mem_cons.mp hc with hc | hc
                · rw [hc]
                  exact hlst klass (List.mem_cons_self _ _)
                · rcases List.mem_append.mp hc with hc | hc
                  · exact huniv1 c hc
                  · exact huniv2 c hc
              · have hA : (acc ++ (nested ++ [(klass, docd)])).map Prod.fst ++ δ2
                    = acc.map Prod.fst ++ ((nested.map Prod.fst ++ [klass]) ++ δ2) := by
                  simp [List.map_append, List.append_assoc]
                refine hperm2.trans ?_
                rw [hA]
                apply List.Perm.append_left
                refine List.Perm.trans
                  ((List.perm_append_singleton klass (nested.map Prod.fst)).append_right δ2) ?_
                exact List.Perm.cons klass (hperm1.append_right δ2)
            · exact Res.noConfusion h
            · exact Res.noConfusion h

theorem eci_shape : ∀ (fuel : Nat) (md : Dict) (sd : SaltData) (seen : List String)
    (pillar : Dict) (cte : Val) (l : List (String × Dict)) (seen1 : List String) (p1 : Dict),
    seen.Nodup →
    expand_classes_in_order fuel md sd seen pillar cte = Res.ok (l, seen1, p1) →
    expandShape sd md seen l seen1 := by
  intro fuel
  induction fuel with
  | zero =>
    intro md sd seen pillar cte l seen1 p1 _ h
    exact Res.noConfusion h
  | succ fuel ih =>
    intro md sd seen pillar cte l seen1 p1 hsn h
    rw [expand_classes_in_order] at h
    split at h
    · exact Res.noConfusion h
    · rename_i lst hit
      split at h
      · exact Res.noConfusion h
      · rename_i lstS hglob
        split at h
        · rename_i l0 s1 q1 heci
          injection h with h2
          injection h2 with hl h3
          injection h3 with hs hp
          have hrec : ∀ (s : List String) (p : Dict) (c : Val) (l1 : List (String × Dict))
              (s1b : List String) (q1b : Dict), s.Nodup →
              expand_classes_in_order fuel [] sd s p c = Res.ok (l1, s1b, q1b) →
              ∃ δ, s1b = s ++ δ ∧ (s ++ δ).Nodup ∧
                (∀ c2 ∈ δ, (classUniverse sd).contains c2 = true) ∧
                List.Perm (l1.map Prod.fst) δ := by
            intro s p c l1 s1b q1b hnd hok
            have hshape := ih [] sd s p c l1 s1b q1b hnd hok
            unfold expandShape at hshape
            obtain ⟨δ, E, h1, h2b, h3b, h4, h5⟩ := hshape
            refine ⟨δ, h1, h2b, h3b, ?_⟩
            rw [h5]
            exact h4
          obtain ⟨δ, hseq, hnd, huniv, hperm⟩ :=
            eciLoop_shape sd _ hrec lstS seen pillar [] l0 s1 q1
              (expand_classes_glob_universe lst sd lstS hglob) hsn
              (by intro k hk; simp at hk) heci
          unfold expandShape
          refine ⟨δ, l0, ?_, hnd, huniv, ?_, ?_⟩
          · rw [← hs]
            exact hseq
          · simpa using hperm
          · exact hl.symm
        · exact Res.noConfusion h
        · exact Res.noConfusion h

theorem eciLoop_terminates (fuel : Nat) (sd : SaltData)
    (hrecT : ∀ (md2 : Dict) (s : List String) (p : Dict) (c : Val),
      s.Nodup → unseenCount sd s < fuel →
      ¬ expand_classes_in_order fuel md2 sd s p c = Res.spent) :
    ∀ (lst seen : List String) (pillar : Dict) (acc : List (String × Dict)),
      (∀ c ∈ lst, (classUniverse sd).contains c = true) →
      seen.Nodup →
      unseenCount sd seen < fuel + 1 →
      ¬ eciLoop sd (fun md2 s p c => expand_classes_in_order fuel md2 sd s p c)
        lst seen pillar acc = Res.spent := by
  intro lst
  induction lst with
  | nil =>
    intro seen pillar acc _ _ _ h
    rw [eciLoop] at h
    exact Res.noConfusion h
  | cons klass rest ih =>
    intro seen pillar acc hlst hsn hcount h
    have hlst2 : ∀ c ∈ rest, (classUniverse sd).contains c = true :=
      fun c hc => hlst c (List.mem_cons_of_mem _ hc)
    rw [eciLoop] at h
    split at h
    · exact ih seen pillar acc hlst2 hsn hcount h
    · rename_i hsk
      have hknotin : ¬ klass ∈ seen := fun hm => hsk ((contains_iff _ _).mpr hm)
      have hsn2 : (seen ++ [klass]).Nodup := nodup_snoc seen klass hsn hknotin
      have hdec : unseenCount sd (seen ++ [klass]) < unseenCount sd seen :=
        unseen_decrease sd seen klass (hlst klass (List.mem_cons_self _ _)) hknotin
      split at h
      · exact Res.noConfusion h
      · rename_i docd hdoc
        split at h
        · exact Res.noConfusion h
        · rename_i pillar1 hmp
          split at h
          · rename_i hcl
            exact ih (seen ++ [klass]) pillar1 _ hlst2 hsn2 (Nat.lt_trans hdec hcount) h
          · rename_i cval hcl
            split at h
            · rename_i nested seen2 pillar2 hr
              have hr2 : expand_classes_in_order fuel [] sd (seen ++ [klass]) pillar1 cval
                  = Res.ok (nested, seen2, pillar2) := hr
              have hshape := eci_shape fuel [] sd (seen ++ [klass]) pillar1 cval
                nested seen2 pillar2 hsn2 hr2
              unfold expandShape at hshape
              obtain ⟨δ, E, hs2eq, hnd1, _, _, _⟩ := hshape
              have hsn2b : seen2.Nodup := by
                rw [hs2eq]
                exact hnd1
              have hcount2 : unseenCount sd seen2 < fuel + 1 := by
                rw [hs2eq]
                exact Nat.lt_trans (Nat.lt_of_le_of_lt
                  (unseen_mono_many sd (seen ++ [klass]) δ) hdec) hcount
              exact ih seen2 pillar2 _ hlst2 hsn2b hcount2 h
            · exact Res.noConfusion h
            · rename_i hr
              have hr2 : expand_classes_in_order fuel [] sd (seen ++ [klass]) pillar1 cval
                  = Res.spent := hr
              exact hrecT [] (seen ++ [klass]) pillar1 cval hsn2
                (Nat.lt_of_lt_of_le hdec (Nat.lt_succ_iff.mp hcount)) hr2

theorem eci_terminates : ∀ (fuel : Nat) (md : Dict) (sd : SaltData) (seen : List String)
    (pillar : Dict) (cte : Val),
    seen.Nodup → unseenCount sd seen < fuel →
    ¬ expand_classes_in_order fuel md sd seen pillar cte = Res.spent := by
  intro fuel
  induction fuel with
  | zero =>
    intro md sd seen pillar cte _ hcount
    exact absurd hcount (Nat.not_lt_zero _)
  | succ fuel ih =>
    intro md sd seen pillar cte hsn hcount h
    rw [expand_classes_in_order] at h
    split at h
    · exact Res.noConfusion h
    · rename_i lst hit
      split at h
      · exact Res.noConfusion h
      · rename_i lstS hglob
        split at h
        · exact Res.noConfusion h
        · exact Res.noConfusion h
        · rename_i heci
          exact eciLoop_terminates fuel sd
            (fun md2 s p c hnd hlt => ih md2 sd s p c hnd hlt)
            lstS seen pillar []
            (expand_classes_glob_universe lst sd lstS hglob) hsn hcount heci

theorem odUpdate_single_keys_nodup {α : Type} (E : List (String × α)) (k : String) (v : α)
    (h : (E.map Prod.fst).Nodup) : ((odUpdate E [(k, v)]).map Prod.fst).Nodup := by
  show ((odSet E k v).map Prod.fst).Nodup
  cases hlk : odLookup E k with
  | none =>
    rw [odSet_keys_new E k v hlk]
    exact nodup_snoc _ k h (not_mem_of_lookup_none E k hlk)
  | some w =>
    rw [odSet_keys_mem E k v (by rw [hlk]; rfl)]
    exact h

/-- C5: over any finite class universe, cyclic inclusion graphs
included, class expansion terminates: with fuel exceeding the number of
class files the expansion never exhausts its fuel; on success the
resolved entry list names each class exactly once (its key list and the
seen list are duplicate free); and a class already in the seen set is
skipped, so a repeated occurrence is a no-op of the loop. -/
theorem class_expansion_terminates_each_once (fuel : Nat) (md : Dict) (sd : SaltData)
    (seen : List String) (pillar : Dict) (cte : Val)
    (hsn : seen.Nodup) (hfuel : sd.classFiles.length < fuel) :
    (¬ expand_classes_in_order fuel md sd seen pillar cte = Res.spent) ∧
    (∀ l seen1 p1, expand_classes_in_order fuel md sd seen pillar cte = Res.ok (l, seen1, p1) →
      (l.map Prod.fst).Nodup ∧ seen1.Nodup) ∧
    (∀ (recur : Dict → List String → Dict → Val → Res ExpRes) (klass : String)
      (rest : List String) (pillar2 : Dict) (acc : List (String × Dict)),
      seen.contains klass = true →
      eciLoop sd recur (klass :: rest) seen pillar2 acc
        = eciLoop sd recur rest seen pillar2 acc) := by
  refine ⟨?_, ?_, ?_⟩
  · exact eci_terminates fuel md sd seen pillar cte hsn
      (Nat.lt_of_le_of_lt (unseen_le_files sd seen) hfuel)
  · intro l seen1 p1 h
    have hshape := eci_shape fuel md sd seen pillar cte l seen1 p1 hsn h
    unfold expandShape at hshape
    obtain ⟨δ, E, hseq, hnd, huniv, hperm, hleq⟩ := hshape
    have hδnd : δ.Nodup := (List.nodup_append.mp hnd).2.1
    have hEnd : (E.map Prod.fst).Nodup := hperm.symm.nodup hδnd
    constructor
    · rw [hleq]
      by_cases hmd : md.isEmpty = true
      · rw [if_pos hmd]
        exact hEnd
      · rw [if_neg hmd]
        exact odUpdate_single_keys_nodup E sd.minion_id md hEnd
    · rw [hseq]
      exact hnd
  · intro recur klass rest pillar2 acc hsk
    rw [eciLoop]
    rw [if_pos hsk]

theorem class_expansion_terminates_each_once_witness :
    ([] : List String).Nodup ∧ sdCyclicAB.classFiles.length < 3 ∧
    (¬ expand_classes_in_order 3 mdCyclicAB sdCyclicAB [] [] Val.vnull = Res.spent) ∧
    expand_classes_in_order 3 mdCyclicAB sdCyclicAB [] [] Val.vnull
      = Res.ok ([("B", [("classes", Val.vlist [Val.vstr "A"])]),
                 ("A", [("classes", Val.vlist [Val.vstr "B"])]),
                 ("m1", [("classes", Val.vlist [Val.vstr "A"])])],
                ["A", "B"], []) :=
  ⟨List.nodup_nil, by decide,
    (class_expansion_terminates_each_once 3 mdCyclicAB sdCyclicAB [] [] Val.vnull
      List.nodup_nil (by decide)).1, rfl⟩

/-- C4 counterexample: with no node file the node document is empty,
the `if minion_dict` guard skips the append, and the expansion result
contains no entry keyed by the node id at all — its last entry is not a
node pseudo-class. -/
theorem node_doc_not_appended_counterexample :
    expand_classes_in_order 2 [] sdEmptyNode [] [] (Val.vlist []) = Res.ok ([], [], []) ∧
    expanded_dict_from_minion 2 sdEmptyNode = Res.ok ([], [], [], []) ∧
    ¬ ∃ (pre : List (String × Dict)) (d : Dict),
      ([] : List (String × Dict)) = pre ++ [(sdEmptyNode.minion_id, d)] := by
  refine ⟨rfl, rfl, ?_⟩
  rintro ⟨pre, d, hcontra⟩
  cases pre <;> simp at hcontra

/-- C4 (amended): when the node document is non-empty and the node id
is not also the name of a class of the universe, the node document is
appended as the final entry of the expansion result, keyed by the node
id. -/
theorem node_doc_appended_when_nonempty (fuel : Nat) (md : Dict) (sd : SaltData)
    (pillar : Dict) (cte : Val) (l : List (String × Dict)) (seen1 : List String) (p1 : Dict)
    (hmd : ¬ md.isEmpty = true)
    (hid : (classUniverse sd).contains sd.minion_id = false)
    (h : expand_classes_in_order fuel md sd [] pillar cte = Res.ok (l, seen1, p1)) :
    l.getLast? = some (sd.minion_id, md) := by
  have hshape := eci_shape fuel md sd [] pillar cte l seen1 p1 List.nodup_nil h
  unfold expandShape at hshape
  obtain ⟨δ, E, hseq, hnd, huniv, hperm, hleq⟩ := hshape
  have hidδ : ¬ sd.minion_id ∈ δ := by
    intro hm
    rw [huniv sd.minion_id hm] at hid
    exact Bool.noConfusion hid
  have hidE : ¬ sd.minion_id ∈ E.map Prod.fst := fun hm => hidδ (hperm.subset hm)
  have happ : odUpdate E [(sd.minion_id, md)] = E ++ [(sd.minion_id, md)] := by
    apply odUpdate_append_disjoint
    · simp
    · intro k2 hk2 hk2a
      simp at hk2
      rw [hk2] at hk2a
      exact hidE hk2a
  rw [hleq, if_neg hmd, happ]
  exact List.getLast?_concat E

theorem node_doc_appended_when_nonempty_witness :
    (¬ mdNodeAppended.isEmpty = true) ∧
    (classUniverse sdNodeAppended).contains sdNodeAppended.minion_id = false ∧
    expand_classes_in_order 2 mdNodeAppended sdNodeAppended [] [] (Val.vlist [])
      = Res.ok ([("a", [("states", Val.vlist [Val.vstr "s1"])]),
                 ("n1", mdNodeAppended)], ["a"], []) ∧
    ([("a", [("states", Val.vlist [Val.vstr "s1"])]),
      ("n1", mdNodeAppended)] : List (String × Dict)).getLast?
      = some (sdNodeAppended.minion_id, mdNodeAppended) :=
  ⟨by decide, by decide, rfl,
    node_doc_appended_when_nonempty 2 mdNodeAppended sdNodeAppended [] (Val.vlist [])
      [("a", [("states", Val.vlist [Val.vstr "s1"])]), ("n1", mdNodeAppended)] ["a"] []
      (by decide) (by decide) rfl⟩

theorem ev_identity_all (n : Nat) :
    (∀ d : Dict, sizeOf d ≤ n → matchFreeDict d = true →
      ∀ b, expand_variables_dict d b = some b) ∧
    (∀ v : Val, sizeOf v ≤ n → matchFreeVal v = true →
      ∀ k b, expand_variables_value k v b = some b) ∧
    (∀ xs : List Val, sizeOf xs ≤ n → matchFreeItems xs = true →
      ∀ k v0 b, expand_variables_items k v0 xs b = some b) ∧
    (∀ i : Val, sizeOf i ≤ n → matchFreeVal i = true →
      ∀ k v0 b, expand_variables_item k v0 i b = some b) := by
  induction n using Nat.strong_induction_on with
  | _ n ih =>
    have hfapr : ∀ s : String, (findMatches s).isEmpty = true →
        ∀ (v0 : Val) (k : String) (b : Dict), find_and_process_re s v0 k b = some b := by
      intro s hs v0 k b
      unfold find_and_process_re
      cases hfm : findMatches s with
      | nil => rfl
      | cons m rest =>
        rw [hfm] at hs
        simp [List.isEmpty] at hs
    have hval : ∀ v : Val, sizeOf v ≤ n → matchFreeVal v = true →
        ∀ k b, expand_variables_value k v b = some b := by
      intro v hv hmf k b
      cases v with
      | vdict d =>
        have hd : sizeOf d < n := by
          have := Val.vdict.sizeOf_spec d
          omega
        exact (ih (n - 1) (by omega)).1 d (by omega) hmf b
      | vlist xs =>
        have hx : sizeOf xs < n := by
          have := Val.vlist.sizeOf_spec xs
          omega
        exact (ih (n - 1) (by omega)).2.2.1 xs (by omega) hmf k (Val.vlist xs) b
      | vstr s => exact hfapr s hmf (Val.vstr s) k b
      | vnull => rfl
      | vbool bb => rfl
      | vint i => rfl
    have hitem : ∀ i : Val, sizeOf i ≤ n → matchFreeVal i = true →
        ∀ k v0 b, expand_variables_item k v0 i b = some b := by
      intro i hi hmf k v0 b
      cases i with
      | vdict d =>
        have hd : sizeOf d < n := by
          have := Val.vdict.sizeOf_spec d
          omega
        exact (ih (n - 1) (by omega)).1 d (by omega) hmf b
      | vstr s => exact hfapr s hmf v0 k b
      | vnull => rfl
      | vbool bb => rfl
      | vint ii => rfl
      | vlist xs => rfl
    refine ⟨?_, hval, ?_, hitem⟩
    · intro d hd hmf b
      induction d with
      | nil => rfl
      | cons hdp rest ihd =>
        obtain ⟨k, v⟩ := hdp
        have h1 : sizeOf v ≤ n := by
          have := List.cons.sizeOf_spec (k, v) rest
          have := Prod.mk.sizeOf_spec k v
          omega
        have h2 : sizeOf rest ≤ n := by
          have := List.cons.sizeOf_spec (k, v) rest
          omega
        have hmv : matchFreeVal v = true ∧ matchFreeDict rest = true := by
          have hh : (matchFreeVal v && matchFreeDict rest) = true := hmf
          simpa using hh
        rw [show expand_variables_dict ((k, v) :: rest) b
            = (match expand_variables_value k v b with
               | none => none
               | some b1 => expand_variables_dict rest b1) from rfl]
        rw [hval v h1 hmv.1 k b]
        exact ihd h2 hmv.2
    · intro xs hx hmf k v0 b
      induction xs with
      | nil => rfl
      | cons i rest ihx =>
        have h1 : sizeOf i ≤ n := by
          have := List.cons.sizeOf_spec i rest
          omega
        have h2 : sizeOf rest ≤ n := by
          have := List.cons.sizeOf_spec i rest
          omega
        have hmv : matchFreeVal i = true ∧ matchFreeItems rest = true := by
          have hh : (matchFreeVal i && matchFreeItems rest) = true := hmf
          simpa using hh
        rw [show expand_variables_items k v0 (i :: rest) b
            = (match expand_variables_item k v0 i b with
               | none => none
               | some b1 => expand_variables_items k v0 rest b1) from rfl]
        rw [hitem i h1 hmv.1 k v0 b]
        exact ihx h2 hmv.2

theorem expand_variables_matchfree_id (a : Dict) (h : matchFreeDict a = true) :
    expand_variables a = some a :=
  (ev_identity_all (sizeOf a)).1 a (Nat.le_refl _) h a

/-- C1 (amended): the node document wins on a shared scalar pillar key
provided the node document is non-empty, the node id does not collide
with a class name of the universe (otherwise the node entry replaces
that class entry in place and is no longer last), and the merged
pillar subtree is free of expansion tokens (so variable expansion is
the identity on it). -/
theorem node_scalar_override (fuel : Nat) (sd : SaltData) (nd pdN pm : Dict)
    (CV : List Dict) (PD : Dict) (CL : List String) (SL : List Val)
    (out : Dict) (k : String) (v : Val)
    (hnd : nodeDocVal sd = Val.vdict nd)
    (hndne : ¬ nd.isEmpty = true)
    (hid : (classUniverse sd).contains sd.minion_id = false)
    (hndk : (nd.map Prod.fst).Nodup)
    (hpN : odLookup nd "pillars" = some (Val.vdict pdN))
    (hpdNnd : (pdN.map Prod.fst).Nodup)
    (hk : odLookup pdN k = some v)
    (hsc : isScalar v = true)
    (hedm : expanded_dict_from_minion fuel sd = Res.ok (CV, PD, CL, SL))
    (hgp : get_pillars fuel sd = Res.ok out)
    (hPD : odLookup PD "pillars" = some (Val.vdict pm))
    (hmf : matchFreeDict pm = true)
    (hpmnd : (pm.map Prod.fst).Nodup) :
    odLookup out k = some v := by
  have hedmO := hedm
  unfold expanded_dict_from_minion at hedm
  rw [hnd] at hedm
  have hedm1 : (match mergeTop sd.pillar0 ((odLookup nd "pillars").getD (Val.vdict [])) with
      | none => Res.crash
      | some pillar1 =>
        match expand_classes_in_order fuel nd sd [] pillar1 (Val.vlist []) with
        | Res.ok (l, _, _) =>
          match foldMergePillars [] (l.map Prod.snd) with
          | none => Res.crash
          | some pillars_dict =>
            match collectStates (l.map Prod.snd) with
            | none => Res.crash
            | some sl =>
              match dedupStates [] sl with
              | none => Res.crash
              | some states_list =>
                Res.ok (l.map Prod.snd, pillars_dict, (l.map Prod.fst).dropLast, states_list)
        | Res.crash => Res.crash
        | Res.spent => Res.spent) = Res.ok (CV, PD, CL, SL) := hedm
  cases hmt : mergeTop sd.pillar0 ((odLookup nd "pillars").getD (Val.vdict [])) with
  | none =>
    rw [hmt] at hedm1
    exact Res.noConfusion hedm1
  | some pillar1 =>
    rw [hmt] at hedm1
    have hedm2 : (match expand_classes_in_order fuel nd sd [] pillar1 (Val.vlist []) with
        | Res.ok (l, _, _) =>
          match foldMergePillars [] (l.map Prod.snd) with
          | none => Res.crash
          | some pillars_dict =>
            match collectStates (l.map Prod.snd) with
            | none => Res.crash
            | some sl =>
              match dedupStates [] sl with
              | none => Res.crash
              | some states_list =>
                Res.ok (l.map Prod.snd, pillars_dict, (l.map Prod.fst).dropLast, states_list)
        | Res.crash => Res.crash
        | Res.spent => Res.spent) = Res.ok (CV, PD, CL, SL) := hedm1
    cases hexp : expand_classes_in_order fuel nd sd [] pillar1 (Val.vlist []) with
    | crash =>
      rw [hexp] at hedm2
      exact Res.noConfusion hedm2
    | spent =>
      rw [hexp] at hedm2
      exact Res.noConfusion hedm2
    | ok tri =>
      obtain ⟨l, s1, q1⟩ := tri
      rw [hexp] at hedm2
      have hedm3 : (match foldMergePillars [] (l.map Prod.snd) with
          | none => Res.crash
          | some pillars_dict =>
            match collectStates (l.map Prod.snd) with
            | none => Res.crash
            | some sl =>
              match dedupStates [] sl with
              | none => Res.crash
              | some states_list =>
                Res.ok (l.map Prod.snd, pillars_dict, (l.map Prod.fst).dropLast, states_list))
          = Res.ok (CV, PD, CL, SL) := hedm2
      cases hfold : foldMergePillars [] (l.map Prod.snd) with
      | none =>
        rw [hfold] at hedm3
        exact Res.noConfusion hedm3
      | some PD0 =>
        rw [hfold] at hedm3
        have hedm4 : (match collectStates (l.map Prod.snd) with
            | none => Res.crash
            | some sl =>
              match dedupStates [] sl with
              | none => Res.crash
              | some states_list =>
                Res.ok (l.map Prod.snd, PD0, (l.map Prod.fst).dropLast, states_list))
            = Res.ok (CV, PD, CL, SL) := hedm3
        cases hcs : collectStates (l.map Prod.snd) with
        | none =>
          rw [hcs] at hedm4
          exact Res.noConfusion hedm4
        | some sl0 =>
          rw [hcs] at hedm4
          have hedm5 : (match dedupStates [] sl0 with
              | none => Res.crash
              | some states_list =>
                Res.ok (l.map Prod.snd, PD0, (l.map Prod.fst).dropLast, states_list))
              = Res.ok (CV, PD, CL, SL) := hedm4
          cases hds : dedupStates [] sl0 with
          | none =>
            rw [hds] at hedm5
            exact Res.noConfusion hedm5
          | some st0 =>
            rw [hds] at hedm5
            have hedm6 : (Res.ok (l.map Prod.snd, PD0, (l.map Prod.fst).dropLast, st0)
                : Res (List Dict × Dict × List String × List Val))
                = Res.ok (CV, PD, CL, SL) := hedm5
            injection hedm6 with h6
            injection h6 with hCV h7
            injection h7 with hPD0 h8
            injection h8 with hCL hSL
            have hshape := eci_shape fuel nd sd [] pillar1 (Val.vlist []) l s1 q1
              List.nodup_nil hexp
            unfold expandShape at hshape
            obtain ⟨δ, E, hseq, hnds, huniv, hperm, hleq⟩ := hshape
            rw [if_neg hndne] at hleq
            have hidδ : ¬ sd.minion_id ∈ δ := by
              intro hm
              rw [huniv sd.minion_id hm] at hid
              exact Bool.noConfusion hid
            have hidE : ¬ sd.minion_id ∈ E.map Prod.fst := fun hm => hidδ (hperm.subset hm)
            have happ : odUpdate E [(sd.minion_id, nd)] = E ++ [(sd.minion_id, nd)] := by
              apply odUpdate_append_disjoint
              · simp
              · intro k2 hk2 hk2a
                simp at hk2
                rw [hk2] at hk2a
                exact hidE hk2a
            rw [happ] at hleq
            have hfoldPD : foldMergePillars [] (E.map Prod.snd ++ nd :: ([] : List Dict))
                = some PD := by
              have h1 : l.map Prod.snd = E.map Prod.snd ++ [nd] := by
                rw [hleq]
                simp
              rw [← h1] at *
              rw [hfold, hPD0]
            have hpAt : pillarAt PD "pillars" k = some v :=
              foldMergePillars_last_definer (E.map Prod.snd) [] nd [] PD k pdN v
                hndk hpN hpdNnd hk hsc
                (fun d2 hd2 => absurd hd2 (List.not_mem_nil d2)) hfoldPD
            have hkpm : odLookup pm k = some v := by
              rw [pillarAt_vdict PD "pillars" k pm hPD] at hpAt
              exact hpAt
            unfold get_pillars at hgp
            rw [hedmO] at hgp
            have hgp2 : (match
                (match odLookup PD "pillars" with
                 | some (Val.vdict pd) => expand_variables pd
                 | some _ => none
                 | none => expand_variables []) with
               | none => Res.crash
               | some pde =>
                 Res.ok (odUpdate
                   [("__saltclass__", Val.vdict
                     [("states", Val.vlist SL),
                      ("classes", Val.vlist (CL.map Val.vstr)),
                      ("environment", get_env_from_dict CV),
                      ("nodename", Val.vstr sd.minion_id)])]
                   pde)) = Res.ok out := hgp
            rw [hPD] at hgp2
            have hgp3 : (match expand_variables pm with
               | none => Res.crash
               | some pde =>
                 Res.ok (odUpdate
                   [("__saltclass__", Val.vdict
                     [("states", Val.vlist SL),
                      ("classes", Val.vlist (CL.map Val.vstr)),
                      ("environment", get_env_from_dict CV),
                      ("nodename", Val.vstr sd.minion_id)])]
                   pde)) = Res.ok out := hgp2
            rw [expand_variables_matchfree_id pm hmf] at hgp3
            have hgp4 : Res.ok (odUpdate
                [("__saltclass__", Val.vdict
                  [("states", Val.vlist SL),
                   ("classes", Val.vlist (CL.map Val.vstr)),
                   ("environment", get_env_from_dict CV),
                   ("nodename", Val.vstr sd.minion_id)])]
                pm) = Res.ok out := hgp3
            injection hgp4 with hout
            rw [← hout]
            exact odUpdate_lookup_mem pm _ k v hpmnd hkpm

theorem edm_inversion (fuel : Nat) (sd : SaltData) (CV : List Dict) (PD : Dict)
    (CL : List String) (SL : List Val)
    (hedm : expanded_dict_from_minion fuel sd = Res.ok (CV, PD, CL, SL)) :
    ∃ nd pillar1 l s1 q1,
      nodeDocVal sd = Val.vdict nd ∧
      mergeTop sd.pillar0 ((odLookup nd "pillars").getD (Val.vdict [])) = some pillar1 ∧
      expand_classes_in_order fuel nd sd [] pillar1 (Val.vlist []) = Res.ok (l, s1, q1) ∧
      CV = l.map Prod.snd ∧
      CL = (l.map Prod.fst).dropLast ∧
      foldMergePillars [] CV = some PD := by
  unfold expanded_dict_from_minion at hedm
  cases hocv : nodeDocVal sd with
  | vnull => rw [hocv] at hedm; exact Res.noConfusion hedm
  | vbool b => rw [hocv] at hedm; exact Res.noConfusion hedm
  | vint i => rw [hocv] at hedm; exact Res.noConfusion hedm
  | vstr s => rw [hocv] at hedm; exact Res.noConfusion hedm
  | vlist xs => rw [hocv] at hedm; exact Res.noConfusion hedm
  | vdict nd =>
    rw [hocv] at hedm
    have hedm1 : (match mergeTop sd.pillar0 ((odLookup nd "pillars").getD (Val.vdict [])) with
        | none => Res.crash
        | some pillar1 =>
          match expand_classes_in_order fuel nd sd [] pillar1 (Val.vlist []) with
          | Res.ok (l, _, _) =>
            match foldMergePillars [] (l.map Prod.snd) with
            | none => Res.crash
            | some pillars_dict =>
              match collectStates (l.map Prod.snd) with
              | none => Res.crash
              | some sl =>
                match dedupStates [] sl with
                | none => Res.crash
                | some states_list =>
                  Res.ok (l.map Prod.snd, pillars_dict, (l.map Prod.fst).dropLast, states_list)
          | Res.crash => Res.crash
          | Res.spent => Res.spent) = Res.ok (CV, PD, CL, SL) := hedm
    cases hmt : mergeTop sd.pillar0 ((odLookup nd "pillars").getD (Val.vdict [])) with
    | none =>
      rw [hmt] at hedm1
      exact Res.noConfusion hedm1
    | some pillar1 =>
      rw [hmt] at hedm1
      have hedm2 : (match expand_classes_in_order fuel nd sd [] pillar1 (Val.vlist []) with
          | Res.ok (l, _, _) =>
            match foldMergePillars [] (l.map Prod.snd) with
            | none => Res.crash
            | some pillars_dict =>
              match collectStates (l.map Prod.snd) with
              | none => Res.crash
              | some sl =>
                match dedupStates [] sl with
                | none => Res.crash
                | some states_list =>
                  Res.ok (l.map Prod.snd, pillars_dict, (l.map Prod.fst).dropLast, states_list)
          | Res.crash => Res.crash
          | Res.spent => Res.spent) = Res.ok (CV, PD, CL, SL) := hedm1
      cases hexp : expand_classes_in_order fuel nd sd [] pillar1 (Val.vlist []) with
      | crash =>
        rw [hexp] at hedm2
        exact Res.noConfusion hedm2
      | spent =>
        rw [hexp] at hedm2
        exact Res.noConfusion hedm2
      | ok tri =>
        obtain ⟨l, s1, q1⟩ := tri
        rw [hexp] at hedm2
        have hedm3 : (match foldMergePillars [] (l.map Prod.snd) with
            | none => Res.crash
            | some pillars_dict =>
              match collectStates (l.map Prod.snd) with
              | none => Res.crash
              | some sl =>
                match dedupStates [] sl with
                | none => Res.crash
                | some states_list =>
                  Res.ok (l.map Prod.snd, pillars_dict, (l.map Prod.fst).dropLast, states_list))
            = Res.ok (CV, PD, CL, SL) := hedm2
        cases hfold : foldMergePillars [] (l.map Prod.snd) with
        | none =>
          rw [hfold] at hedm3
          exact Res.noConfusion hedm3
        | some PD0 =>
          rw [hfold] at hedm3
          have hedm4 : (match collectStates (l.map Prod.snd) with
              | none => Res.crash
              | some sl =>
                match dedupStates [] sl with
                | none => Res.crash
                | some states_list =>
                  Res.ok (l.map Prod.snd, PD0, (l.map Prod.fst).dropLast, states_list))
              = Res.ok (CV, PD, CL, SL) := hedm3
          cases hcs : collectStates (l.map Prod.snd) with
          | none =>
            rw [hcs] at hedm4
            exact Res.noConfusion hedm4
          | some sl0 =>
            rw [hcs] at hedm4
            have hedm5 : (match dedupStates [] sl0 with
                | none => Res.crash
                | some states_list =>
                  Res.ok (l.map Prod.snd, PD0, (l.map Prod.fst).dropLast, states_list))
                = Res.ok (CV, PD, CL, SL) := hedm4
            cases hds : dedupStates [] sl0 with
            | none =>
              rw [hds] at hedm5
              exact Res.noConfusion hedm5
            | some st0 =>
              rw [hds] at hedm5
              have hedm6 : (Res.ok (l.map Prod.snd, PD0, (l.map Prod.fst).dropLast, st0)
                  : Res (List Dict × Dict × List String × List Val))
                  = Res.ok (CV, PD, CL, SL) := hedm5
              injection hedm6 with h6
              injection h6 with hCV h7
              injection h7 with hPD0 h8
              injection h8 with hCL hSL
              refine ⟨nd, pillar1, l, s1, q1, rfl, hmt, hexp, hCV.symm, hCL.symm, ?_⟩
              rw [← hCV, hfold, hPD0]

theorem gp_out_inversion (fuel : Nat) (sd : SaltData) (CV : List Dict) (PD : Dict)
    (CL : List String) (SL : List Val) (out pm : Dict)
    (hedm : expanded_dict_from_minion fuel sd = Res.ok (CV, PD, CL, SL))
    (hgp : get_pillars fuel sd = Res.ok out)
    (hPD : odLookup PD "pillars" = some (Val.vdict pm))
    (hmf : matchFreeDict pm = true) :
    out = odUpdate
      [("__saltclass__", Val.vdict
        [("states", Val.vlist SL),
         ("classes", Val.vlist (CL.map Val.vstr)),
         ("environment", get_env_from_dict CV),
         ("nodename", Val.vstr sd.minion_id)])] pm := by
  unfold get_pillars at hgp
  rw [hedm] at hgp
  have hgp2 : (match
      (match odLookup PD "pillars" with
       | some (Val.vdict pd) => expand_variables pd
       | some _ => none
       | none => expand_variables []) with
     | none => Res.crash
     | some pde =>
       Res.ok (odUpdate
         [("__saltclass__", Val.vdict
           [("states", Val.vlist SL),
            ("classes", Val.vlist (CL.map Val.vstr)),
            ("environment", get_env_from_dict CV),
            ("nodename", Val.vstr sd.minion_id)])]
         pde)) = Res.ok out := hgp
  rw [hPD] at hgp2
  have hgp3 : (match expand_variables pm with
     | none => Res.crash
     | some pde =>
       Res.ok (odUpdate
         [("__saltclass__", Val.vdict
           [("states", Val.vlist SL),
            ("classes", Val.vlist (CL.map Val.vstr)),
            ("environment", get_env_from_dict CV),
            ("nodename", Val.vstr sd.minion_id)])]
         pde)) = Res.ok out := hgp2
  rw [expand_variables_matchfree_id pm hmf] at hgp3
  have hgp4 : Res.ok (odUpdate
      [("__saltclass__", Val.vdict
        [("states", Val.vlist SL),
         ("classes", Val.vlist (CL.map Val.vstr)),
         ("environment", get_env_from_dict CV),
         ("nodename", Val.vstr sd.minion_id)])]
      pm) = Res.ok out := hgp3
  injection hgp4 with hout
  exact hout.symm

/-- C2 (amended): precedence between classes is positional in the
expansion result, not by inclusion direction: whatever document sits
later in the composed list wins on a shared scalar pillar key, provided
every document after it leaves the key alone.  (With a cyclic
inclusion the included class can end up after the includer and win; see
the counterexample.) -/
theorem later_entry_scalar_wins (fuel : Nat) (sd : SaltData)
    (CV V1 V2 : List Dict) (d : Dict) (PD : Dict) (CL : List String) (SL : List Val)
    (out : Dict) (k : String) (pd pm : Dict) (v : Val)
    (hedm : expanded_dict_from_minion fuel sd = Res.ok (CV, PD, CL, SL))
    (hsplit : CV = V1 ++ d :: V2)
    (hdn : (d.map Prod.fst).Nodup)
    (hpl : odLookup d "pillars" = some (Val.vdict pd))
    (hpn : (pd.map Prod.fst).Nodup)
    (hk : odLookup pd k = some v)
    (hs : isScalar v = true)
    (hV2 : ∀ d2 ∈ V2, preservesPillarKey d2 k = true)
    (hgp : get_pillars fuel sd = Res.ok out)
    (hPD : odLookup PD "pillars" = some (Val.vdict pm))
    (hmf : matchFreeDict pm = true)
    (hpmnd : (pm.map Prod.fst).Nodup) :
    odLookup out k = some v := by
  obtain ⟨nd, pillar1, l, s1, q1, hnd, hmt, hexp, hCV, hCL, hfold⟩ :=
    edm_inversion fuel sd CV PD CL SL hedm
  rw [hsplit] at hfold
  have hpAt : pillarAt PD "pillars" k = some v :=
    foldMergePillars_last_definer V1 V2 d [] PD k pd v hdn hpl hpn hk hs hV2 hfold
  have hkpm : odLookup pm k = some v := by
    rw [pillarAt_vdict PD "pillars" k pm hPD] at hpAt
    exact hpAt
  rw [gp_out_inversion fuel sd CV PD CL SL out pm hedm hgp hPD hmf]
  exact odUpdate_lookup_mem pm _ k v hpmnd hkpm

/-- C1 counterexample: the node id `n1` is also the name of a class, so
the node entry replaces that class entry in place instead of being
appended last; class `b` then merges after the node document and its
value `3` for pillar `k` beats the node value `2`. -/
theorem node_scalar_override_counterexample :
    resLookup (get_pillars 5 sdNodeCollide) "k" = some (Val.vint 3) ∧
    ¬ resLookup (get_pillars 5 sdNodeCollide) "k" = some (Val.vint 2) := by
  constructor
  · rfl
  · rw [show resLookup (get_pillars 5 sdNodeCollide) "k" = some (Val.vint 3) from rfl]
    exact some_val_ne _ _ (by decide)

theorem node_scalar_override_witness :
    expanded_dict_from_minion 3 sdNodeWins
      = Res.ok ([[("pillars", Val.vdict [("k", Val.vint 1)])],
                 [("classes", Val.vlist [Val.vstr "a"]),
                  ("pillars", Val.vdict [("k", Val.vint 2)])]],
                [("pillars", Val.vdict [("k", Val.vint 2)]),
                 ("classes", Val.vlist [Val.vstr "a"])],
                ["a"], []) ∧
    get_pillars 3 sdNodeWins
      = Res.ok [("__saltclass__", Val.vdict
                  [("states", Val.vlist []),
                   ("classes", Val.vlist [Val.vstr "a"]),
                   ("environment", Val.vstr ""),
                   ("nodename", Val.vstr "n1")]),
                ("k", Val.vint 2)] ∧
    odLookup [("__saltclass__", Val.vdict
                [("states", Val.vlist []),
                 ("classes", Val.vlist [Val.vstr "a"]),
                 ("environment", Val.vstr ""),
                 ("nodename", Val.vstr "n1")]),
              ("k", Val.vint 2)] "k" = some (Val.vint 2) :=
  ⟨rfl, rfl,
    node_scalar_override 3 sdNodeWins
      [("classes", Val.vlist [Val.vstr "a"]), ("pillars", Val.vdict [("k", Val.vint 2)])]
      [("k", Val.vint 2)] [("k", Val.vint 2)]
      [[("pillars", Val.vdict [("k", Val.vint 1)])],
       [("classes", Val.vlist [Val.vstr "a"]), ("pillars", Val.vdict [("k", Val.vint 2)])]]
      [("pillars", Val.vdict [("k", Val.vint 2)]), ("classes", Val.vlist [Val.vstr "a"])]
      ["a"] []
      [("__saltclass__", Val.vdict
         [("states", Val.vlist []),
          ("classes", Val.vlist [Val.vstr "a"]),
          ("environment", Val.vstr ""),
          ("nodename", Val.vstr "n1")]),
       ("k", Val.vint 2)]
      "k" (Val.vint 2)
      rfl (by decide) (by decide) (by decide) rfl (by decide) rfl rfl rfl rfl rfl
      (by decide) (by decide)⟩

/-- C2 counterexample: in the cyclic graph `P` includes `C` and `C`
includes `P` with the node including `C`; the expansion places `P`
before `C`, the later entry `C` wins the merge, and the resolved value
of `k` is `"c"`, not the includer value `"p"`. -/
theorem parent_over_child_counterexample :
    resLookup (get_pillars 5 sdCycle) "k" = some (Val.vstr "c") ∧
    ¬ resLookup (get_pillars 5 sdCycle) "k" = some (Val.vstr "p") := by
  constructor
  · rfl
  · rw [show resLookup (get_pillars 5 sdCycle) "k" = some (Val.vstr "c") from rfl]
    exact some_val_ne _ _ (by decide)

theorem later_entry_scalar_wins_witness :
    expanded_dict_from_minion 3 sdParentWins
      = Res.ok ([[("pillars", Val.vdict [("k", Val.vstr "c")])],
                 [("classes", Val.vlist [Val.vstr "C"]),
                  ("pillars", Val.vdict [("k", Val.vstr "p")])],
                 [("classes", Val.vlist [Val.vstr "P"])]],
                [("pillars", Val.vdict [("k", Val.vstr "p")]),
                 ("classes", Val.vlist [Val.vstr "C"])],
                ["C", "P"], []) ∧
    get_pillars 3 sdParentWins
      = Res.ok [("__saltclass__", Val.vdict
                  [("states", Val.vlist []),
                   ("classes", Val.vlist [Val.vstr "C", Val.vstr "P"]),
                   ("environment", Val.vstr ""),
                   ("nodename", Val.vstr "n1")]),
                ("k", Val.vstr "p")] ∧
    odLookup [("__saltclass__", Val.vdict
                [("states", Val.vlist []),
                 ("classes", Val.vlist [Val.vstr "C", Val.vstr "P"]),
                 ("environment", Val.vstr ""),
                 ("nodename", Val.vstr "n1")]),
              ("k", Val.vstr "p")] "k" = some (Val.vstr "p") :=
  ⟨rfl, rfl,
    later_entry_scalar_wins 3 sdParentWins
      [[("pillars", Val.vdict [("k", Val.vstr "c")])],
       [("classes", Val.vlist [Val.vstr "C"]), ("pillars", Val.vdict [("k", Val.vstr "p")])],
       [("classes", Val.vlist [Val.vstr "P"])]]
      [[("pillars", Val.vdict [("k", Val.vstr "c")])]]
      [[("classes", Val.vlist [Val.vstr "P"])]]
      [("classes", Val.vlist [Val.vstr "C"]), ("pillars", Val.vdict [("k", Val.vstr "p")])]
      [("pillars", Val.vdict [("k", Val.vstr "p")]), ("classes", Val.vlist [Val.vstr "C"])]
      ["C", "P"] []
      [("__saltclass__", Val.vdict
         [("states", Val.vlist []),
          ("classes", Val.vlist [Val.vstr "C", Val.vstr "P"]),
          ("environment", Val.vstr ""),
          ("nodename", Val.vstr "n1")]),
       ("k", Val.vstr "p")]
      "k" [("k", Val.vstr "p")] [("k", Val.vstr "p")] (Val.vstr "p")
      rfl rfl (by decide) rfl (by decide) rfl rfl (by decide) rfl rfl
      (by decide) (by decide)⟩
